import Mathlib
set_option linter.unusedSectionVars false

/-- One slot of the backing array: `struct Entry { KeyType key; ValueType value; }`.
`key = none` models the `KeyTraits::null()` sentinel marking an empty slot. -/
structure Entry (K V : Type) where
  key : Option K
  value : Option V
deriving DecidableEq, Repr

/-- An empty slot (null key, indeterminate value modelled as `none`). -/
def emptyEntry {K V : Type} : Entry K V := ⟨none, none⟩

instance {K V : Type} : Inhabited (Entry K V) := ⟨emptyEntry⟩

/-- The hash map state: `map_`, `capacity_` and `occupancy_` fields of the
C++ class. -/
structure QHashMap (K V : Type) where
  map : Array (Entry K V)
  capacity : Nat
  occupancy : Nat
deriving DecidableEq, Repr

/-! ## Definitions -/

namespace QHM

variable {K V : Type} [DecidableEq K]

/-- The key stored at slot `i` (out-of-range reads give the empty slot;
well-formed states never read out of range). -/
def keyAt (m : Array (Entry K V)) (i : Nat) : Option K :=
  (m.getD i emptyEntry).key

/-- The value stored at slot `i`. -/
def valAt (m : Array (Entry K V)) (i : Nat) : Option V :=
  (m.getD i emptyEntry).value

/-- `map_ + (KeyTraits::hash(key) & (capacity_ - 1))`: a key's home slot. -/
def home (hash : K → Nat) (cap : Nat) (k : K) : Nat :=
  hash k &&& (cap - 1)

/-- The loop of `Probe`: starting at slot `p`, scan forward (wrapping at
`m.size`, i.e. `map_end()`) while the slot is non-empty and does not hold a
key with equal hash and equal value.  `none` = the C++ loop never
terminates (fuel exhausted). -/
def probeLoop (hash : K → Nat) (key : K) (m : Array (Entry K V)) :
    Nat → Nat → Option Nat
  | 0, _ => none
  | fuel+1, p =>
    match (m.getD p emptyEntry).key with
    | none => some p
    | some pk =>
      if hash key = hash pk ∧ key = pk then some p
      else probeLoop hash key m fuel ((p + 1) % m.size)

/-- `QHashMap::Probe`: returns the slot holding `key`, or the first empty
slot on `key`'s probe path.  Fuel `capacity` is enough iff the C++ loop
terminates (it visits every slot once). -/
def Probe (hash : K → Nat) (t : QHashMap K V) (key : K) : Option Nat :=
  probeLoop hash key t.map t.capacity (home hash t.capacity key)

/-- `Initialize`: allocate `capacity` entries and `Clear` them
(`occupancy_ = 0`, all keys null). -/
def newTable (cap : Nat) : QHashMap K V :=
  { map := Array.mkArray cap emptyEntry, capacity := cap, occupancy := 0 }

/-- `QHashMap::Clear`: mark every entry's key null, `occupancy_ = 0`
(values are not touched by the C++ code). -/
def Clear (t : QHashMap K V) : QHashMap K V :=
  { t with map := t.map.map (fun e => { e with key := none }), occupancy := 0 }

/-- A caller (or the rehash loop of `Resize`) writing through a returned
entry handle: `entry->value = v` at slot `i`. -/
def setValueAt (t : QHashMap K V) (i : Nat) (v : Option V) : QHashMap K V :=
  { t with map := t.map.setD i { t.map.getD i emptyEntry with key := keyAt t.map i, value := v } }

/-- The rehash loop of `Resize`: `for (Entry* p = map; n > 0; p++)
if (p->key != null) { ins(p->key)->value = p->value; n--; }`.
`ins` is the insert-or-find operation used on the new table
(`Lookup(key, true)` at one lower resize-nesting fuel).  `slots` bounds the
scan of the old array; exhausting it with `n > 0` models the C++ loop
reading past the end of the old array. -/
def rehashWith (ins : K → QHashMap K V → Option (Nat × QHashMap K V))
    (old : Array (Entry K V)) :
    Nat → Nat → Nat → QHashMap K V → Option (QHashMap K V)
  | _, _, 0, t => some t
  | 0, _, _+1, _ => none
  | slots+1, i, n+1, t =>
    match keyAt old i with
    | none => rehashWith ins old slots (i+1) (n+1) t
    | some k =>
      match ins k t with
      | none => none
      | some (q, t') =>
        rehashWith ins old slots (i+1) n (setValueAt t' q (valAt old i))

/-- `QHashMap::Resize` with the insert operation abstracted: save the old
array and occupancy, reinitialize at double capacity, rehash every old
entry, (the old array is then freed — a no-op here). -/
def ResizeWith (ins : K → QHashMap K V → Option (Nat × QHashMap K V))
    (t : QHashMap K V) : Option (QHashMap K V) :=
  rehashWith ins t.map t.map.size 0 t.occupancy (newTable (t.capacity * 2))

/-- `QHashMap::Lookup(key, insert)`.  The outer `Option` is the fuel monad
(`none` = divergence); the inner `Option Nat` is the returned `Entry*`
(`none` = `NULL`, `some p` = a handle to slot `p` of the returned table).
The fuel bounds the nesting depth of `Resize` calls. -/
def LookupAux (hash : K → Nat) :
    Nat → K → Bool → QHashMap K V → Option (Option Nat × QHashMap K V)
  | 0, _, _, _ => none
  | fuel+1, key, insert, t =>
    match Probe hash t key with
    | none => none
    | some p =>
      match keyAt t.map p with
      | some _ => some (some p, t)
      | none =>
        if insert then
          let t1 : QHashMap K V :=
            { t with
              map := t.map.setD p { t.map.getD p emptyEntry with key := some key },
              occupancy := t.occupancy + 1 }
          if t1.capacity ≤ t1.occupancy + t1.occupancy / 4 then
            match ResizeWith (fun k u =>
                match LookupAux hash fuel k true u with
                | some (some q, u') => some (q, u')
                | _ => none) t1 with
            | none => none
            | some t2 =>
              match Probe hash t2 key with
              | none => none
              | some p2 => some (some p2, t2)
          else some (some p, t1)
        else some (none, t)

/-- `QHashMap::Resize` proper, with `fuel` bounding further resize nesting
in the `Lookup(key, true)` calls of its rehash loop. -/
def ResizeAux (hash : K → Nat) (fuel : Nat) (t : QHashMap K V) :
    Option (QHashMap K V) :=
  ResizeWith (fun k u =>
    match LookupAux hash fuel k true u with
    | some (some q, u') => some (q, u')
    | _ => none) t

/-- Top-level `Lookup`.  Fuel 2 allows the one resize a well-formed insert
can trigger (the rehash loop's nested inserts never re-trigger a resize,
which the theorems below prove). -/
def Lookup (hash : K → Nat) (t : QHashMap K V) (key : K) (insert : Bool) :
    Option (Option Nat × QHashMap K V) :=
  LookupAux hash 2 key insert t

/-- The slide-back loop of `QHashMap::Remove`: `p` is the candidate slot to
clear, `q0` the scan position; advance `q` (wrapping at `map_end()`), stop
at an empty slot, otherwise move the entry at `q` back to `p` when its home
slot `r` lies outside the wrap-aware interval from `p` to `q`. -/
def removeLoop (hash : K → Nat) (cap : Nat) :
    Nat → Array (Entry K V) → Nat → Nat → Option (Array (Entry K V) × Nat)
  | 0, _, _, _ => none
  | fuel+1, m, p, q0 =>
    let q := if q0 + 1 = cap then 0 else q0 + 1
    match keyAt m q with
    | none => some (m, p)
    | some qk =>
      let r := hash qk &&& (cap - 1)
      if (q > p ∧ (r ≤ p ∨ r > q)) ∨ (q < p ∧ (r ≤ p ∧ r > q)) then
        removeLoop hash cap fuel (m.setD p (m.getD q emptyEntry)) q q
      else
        removeLoop hash cap fuel m p q

/-- `QHashMap::Remove(key)`: probe; if the slot is empty return `false`
unchanged; otherwise run the slide-back loop, clear the final candidate
slot and decrement `occupancy_`. -/
def Remove (hash : K → Nat) (t : QHashMap K V) (key : K) :
    Option (Bool × QHashMap K V) :=
  match Probe hash t key with
  | none => none
  | some p =>
    match keyAt t.map p with
    | none => some (false, t)
    | some _ =>
      match removeLoop hash t.capacity t.capacity t.map p p with
      | none => none
      | some (m, pf) =>
        some (true, { t with
          map := m.setD pf { m.getD pf emptyEntry with key := none },
          occupancy := t.occupancy - 1 })

/-- The scan shared by `Start` and `Next`: the first slot `≥ j` (and
`< cap`) holding a non-null key. -/
def scanFrom (m : Array (Entry K V)) (cap : Nat) (j : Nat) : Option Nat :=
  if j < cap then
    if (keyAt m j).isSome then some j else scanFrom m cap (j+1)
  else none
termination_by cap - j

/-- `QHashMap::Start`: `Next(map_ - 1)`, i.e. the first occupied slot from
index 0, or `none` (`NULL`). -/
def StartSlot (t : QHashMap K V) : Option Nat :=
  scanFrom t.map t.capacity 0

/-- `QHashMap::Next(p)`: the first occupied slot after `i`, or `none`. -/
def NextSlot (t : QHashMap K V) (i : Nat) : Option Nat :=
  scanFrom t.map t.capacity (i+1)

/-- The full iteration sequence `Start; Next; Next; …` as a list of slot
indices (fuel bounds the number of yielded entries). -/
def iterTrace (t : QHashMap K V) : Nat → Option Nat → List Nat
  | 0, _ => []
  | _+1, none => []
  | fuel+1, some i => i :: iterTrace t fuel (NextSlot t i)

/-- All entries yielded by a full iteration of the table. -/
def iterList (t : QHashMap K V) : List Nat :=
  iterTrace t t.capacity (StartSlot t)

/-- Forward cyclic distance from `a` to `b` modulo `cap`. -/
def cdist (cap a b : Nat) : Nat := (b + cap - a) % cap

/-- The number of non-empty slots of the backing array. -/
def countOcc (m : Array (Entry K V)) : Nat :=
  ∑ i ∈ Finset.range m.size, if (keyAt m i).isSome then 1 else 0

/-- The stop condition of `Probe`'s loop at slot `j`: the slot is empty, or
holds a key with equal hash and equal value — since `hash` is a pure
function, the latter is simply "holds `key`". -/
def stopAt (key : K) (m : Array (Entry K V)) (j : Nat) : Prop :=
  keyAt m j = none ∨ keyAt m j = some key

instance (key : K) (m : Array (Entry K V)) (j : Nat) :
    Decidable (stopAt key m j) := by
  unfold stopAt; infer_instance

/-- No key is stored in two distinct slots of the array. -/
def NodupArr (m : Array (Entry K V)) (cap : Nat) : Prop :=
  ∀ a b k, a < cap → b < cap → keyAt m a = some k → keyAt m b = some k →
    a = b

/-- The probe-sequence invariant: for every live key, every slot on the
linear-probe path from the key's home slot to its actual slot is
non-empty. -/
def PpiArr (hash : K → Nat) (m : Array (Entry K V)) (cap : Nat) : Prop :=
  ∀ a k, a < cap → keyAt m a = some k → ∀ j, j < cap →
    cdist cap (home hash cap k) j < cdist cap (home hash cap k) a →
    keyAt m j ≠ none

/-- Well-formedness of a table state: sizes agree, capacity is a power of
two, `occupancy_` counts the non-empty slots, the integer load-factor bound
holds, no key is stored twice, and every live key's probe path from its
home slot is fully occupied (the probe-sequence invariant). -/
structure WF (hash : K → Nat) (t : QHashMap K V) : Prop where
  size_eq : t.map.size = t.capacity
  pow2 : ∃ w, t.capacity = 2 ^ w
  occ_eq : t.occupancy = countOcc t.map
  load : t.occupancy + t.occupancy / 4 < t.capacity
  nodup : NodupArr t.map t.capacity
  ppi : PpiArr hash t.map t.capacity

/-- The key `k` is stored somewhere in the table. -/
def MemKey (t : QHashMap K V) (k : K) : Prop :=
  ∃ i, i < t.capacity ∧ keyAt t.map i = some k

/-- The pair `(k, v)` is stored in some slot of the table. -/
def HasPair (t : QHashMap K V) (k : K) (v : Option V) : Prop :=
  ∃ i, i < t.capacity ∧ keyAt t.map i = some k ∧ valAt t.map i = v

/-- Occupied-slot count from index `i` to the end of the array. -/
def countOccFrom (m : Array (Entry K V)) (i : Nat) : Nat :=
  ∑ j ∈ Finset.Ico i m.size, if (keyAt m j).isSome then 1 else 0

/-- Invariant of `Remove`'s slide-back loop, at the loop head.  `m0`, `p0`
are the array and probed slot at loop entry; `m` the current array, `p`
the pending-clear slot, `q` the scan position.  Regarding slot `p` as
logically empty: all live keys whose probe path needs `p` lie strictly
beyond the scanned arc, every live key's path is physically unbroken, no
key is duplicated, and the logical contents are exactly those of `m0`
minus slot `p0`. -/
structure RemInv (hash : K → Nat) (cap : Nat) (m0 : Array (Entry K V))
    (p0 : Nat) (m : Array (Entry K V)) (p q : Nat) : Prop where
  size_eq : m.size = cap
  hp : p < cap
  hq : q < cap
  pending : keyAt m p ≠ none
  cnt : countOcc m = countOcc m0
  cond : ∀ i k', i < cap → i ≠ p → keyAt m i = some k' →
    (∀ j, j < cap →
      cdist cap (home hash cap k') j < cdist cap (home hash cap k') i →
      keyAt m j ≠ none) ∧
    (cdist cap (home hash cap k') p < cdist cap (home hash cap k') i →
      cdist cap p q < cdist cap p i)
  nd : ∀ i j k', i < cap → j < cap → i ≠ p → j ≠ p →
    keyAt m i = some k' → keyAt m j = some k' → i = j
  content : ∀ k' v,
    (∃ i, i < cap ∧ i ≠ p ∧ keyAt m i = some k' ∧ valAt m i = v) ↔
    (∃ i, i < cap ∧ i ≠ p0 ∧ keyAt m0 i = some k' ∧ valAt m0 i = v)

/-- State at loop exit: slot `p` can now be cleared without orphaning any
live key (no remaining key's probe path passes through `p`). -/
structure RemOut (hash : K → Nat) (cap : Nat) (m0 : Array (Entry K V))
    (p0 : Nat) (m : Array (Entry K V)) (p : Nat) : Prop where
  size_eq : m.size = cap
  hp : p < cap
  pending : keyAt m p ≠ none
  cnt : countOcc m = countOcc m0
  safe : ∀ i k', i < cap → i ≠ p → keyAt m i = some k' →
    (∀ j, j < cap →
      cdist cap (home hash cap k') j < cdist cap (home hash cap k') i →
      keyAt m j ≠ none) ∧
    ¬ (cdist cap (home hash cap k') p < cdist cap (home hash cap k') i)
  nd : ∀ i j k', i < cap → j < cap → i ≠ p → j ≠ p →
    keyAt m i = some k' → keyAt m j = some k' → i = j
  content : ∀ k' v,
    (∃ i, i < cap ∧ i ≠ p ∧ keyAt m i = some k' ∧ valAt m i = v) ↔
    (∃ i, i < cap ∧ i ≠ p0 ∧ keyAt m0 i = some k' ∧ valAt m0 i = v)

/-- The operations of the public interface. -/
inductive Op (K V : Type) where
  | lookup (k : K) (insert : Bool)
  | put (k : K) (v : V)
  | remove (k : K)
  | clear

/-- Run one public operation: `lookup` is `Lookup(k, b)` discarding the
returned handle; `put k v` is the caller idiom
`map.Lookup(k, true)->value = v`; `remove` is `Remove(k)`; `clear` is
`Clear()`. -/
def runOp (hash : K → Nat) (t : QHashMap K V) : Op K V → Option (QHashMap K V)
  | .lookup k b => (Lookup hash t k b).map (fun r => r.2)
  | .put k v =>
    match Lookup hash t k true with
    | some (some i, t') => some (setValueAt t' i (some v))
    | _ => none
  | .remove k => (Remove hash t k).map (fun r => r.2)
  | .clear => some (Clear t)

/-- Run a sequence of public operations. -/
def runOps (hash : K → Nat) : QHashMap K V → List (Op K V) → Option (QHashMap K V)
  | t, [] => some t
  | t, op :: ops =>
    match runOp hash t op with
    | none => none
    | some t' => runOps hash t' ops

/-- Does the operation write the entry of key `k` (or the whole table)? -/
def touches : Op K V → K → Prop
  | .lookup _ _, _ => False
  | .put k' _, k => k' = k
  | .remove k', k => k' = k
  | .clear, _ => True

instance (op : Op K V) (k : K) : Decidable (touches op k) := by
  cases op with
  | lookup k' b => exact isFalse (fun h => h)
  | put k' v => exact decEq k' k
  | remove k' => exact decEq k' k
  | clear => exact isTrue trivial

/-- Concrete tables used to instantiate the claims below (reached from an
empty capacity-8 table with the identity hash). -/
def wT1 : QHashMap Nat Nat :=
  ⟨#[⟨none, none⟩, ⟨some 1, some 10⟩, ⟨some 9, some 90⟩, ⟨none, none⟩,
     ⟨none, none⟩, ⟨none, none⟩, ⟨none, none⟩, ⟨none, none⟩], 8, 2⟩

def wT1r : QHashMap Nat Nat :=
  ⟨#[⟨none, none⟩, ⟨some 9, some 90⟩, ⟨none, some 90⟩, ⟨none, none⟩,
     ⟨none, none⟩, ⟨none, none⟩, ⟨none, none⟩, ⟨none, none⟩], 8, 1⟩

def wT3 : QHashMap Nat Nat :=
  ⟨#[⟨none, none⟩, ⟨none, none⟩, ⟨none, none⟩, ⟨none, none⟩,
     ⟨none, none⟩, ⟨some 5, none⟩, ⟨none, none⟩, ⟨none, none⟩], 8, 1⟩

def wT4a : QHashMap Nat Nat :=
  ⟨#[⟨none, none⟩, ⟨none, none⟩, ⟨none, none⟩, ⟨none, none⟩,
     ⟨none, none⟩, ⟨some 5, some 55⟩, ⟨none, none⟩, ⟨none, none⟩], 8, 1⟩

def wT4b : QHashMap Nat Nat :=
  ⟨#[⟨none, none⟩, ⟨none, none⟩, ⟨none, some 22⟩, ⟨none, none⟩,
     ⟨none, none⟩, ⟨some 5, some 55⟩, ⟨none, none⟩, ⟨none, none⟩], 8, 1⟩

end QHM

/-! ## Theorems -/

namespace QHM

variable {K V : Type} [DecidableEq K]

theorem cdist_closed {cap a b : Nat} (ha : a < cap) (hb : b < cap) :
    cdist cap a b = if a ≤ b then b - a else b + cap - a := by
  unfold cdist
  rcases le_or_lt a b with h | h
  · have h1 : b + cap - a = (b - a) + cap := by omega
    rw [if_pos h, h1, Nat.add_mod_right, Nat.mod_eq_of_lt (by omega)]
  · rw [if_neg (by omega), Nat.mod_eq_of_lt (by omega)]

theorem cdist_lt {cap a b : Nat} (ha : a < cap) (hb : b < cap) :
    cdist cap a b < cap := by
  rw [cdist_closed ha hb]; split <;> omega

theorem cdist_eq_zero_iff {cap a b : Nat} (ha : a < cap) (hb : b < cap) :
    cdist cap a b = 0 ↔ a = b := by
  rw [cdist_closed ha hb]; split <;> omega

theorem cdist_inj {cap a b c : Nat} (ha : a < cap) (hb : b < cap)
    (hc : c < cap) (h : cdist cap a b = cdist cap a c) : b = c := by
  rw [cdist_closed ha hb, cdist_closed ha hc] at h
  split_ifs at h <;> omega

theorem cdist_decomp {cap a b c : Nat} (ha : a < cap) (hb : b < cap)
    (hc : c < cap) (h : cdist cap a b ≤ cdist cap a c) :
    cdist cap a c = cdist cap a b + cdist cap b c := by
  rw [cdist_closed ha hb, cdist_closed ha hc] at *
  rw [cdist_closed hb hc]
  split_ifs at * <;> omega

theorem cdist_symm_add {cap a b : Nat} (ha : a < cap) (hb : b < cap)
    (h : a ≠ b) : cdist cap a b + cdist cap b a = cap := by
  rw [cdist_closed ha hb, cdist_closed hb ha]
  split_ifs <;> omega

theorem cdist_collapse {cap a b c : Nat} (ha : a < cap) (hb : b < cap)
    (hc : c < cap) (h : cdist cap a b + cdist cap b c < cap) :
    cdist cap a c = cdist cap a b + cdist cap b c := by
  rw [cdist_closed ha hb, cdist_closed hb hc] at *
  rw [cdist_closed ha hc]
  split_ifs at * <;> omega

theorem cdist_step {cap a : Nat} (u : Nat) (ha : a < cap) :
    cdist cap a ((a + u) % cap) = u % cap := by
  have hcap : 0 < cap := Nat.lt_of_le_of_lt (Nat.zero_le a) ha
  unfold cdist
  have h1 : (a + u) % cap + cap - a = (a + u) % cap + (cap - a) := by omega
  rw [h1, Nat.mod_add_mod, show a + u + (cap - a) = u + cap by omega,
    Nat.add_mod_right]

theorem cdist_cancel {cap a b : Nat} (ha : a < cap) (hb : b < cap) :
    (a + cdist cap a b) % cap = b := by
  unfold cdist
  rw [Nat.add_mod_mod]
  have h1 : a + (b + cap - a) = b + cap := by omega
  rw [h1, Nat.add_mod_right, Nat.mod_eq_of_lt hb]

theorem cdist_succ {cap a b : Nat} (ha : a < cap) (hb : b < cap) :
    cdist cap a ((b + 1) % cap) = (cdist cap a b + 1) % cap := by
  have h1 : (b + 1) % cap = (a + (cdist cap a b + 1)) % cap := by
    conv_lhs => rw [← cdist_cancel ha hb]
    rw [Nat.mod_add_mod, Nat.add_assoc]
  rw [h1, cdist_step _ ha]

theorem getD_setD_eq {α : Type} (a : Array α) (i : Nat) (v d : α)
    (h : i < a.size) : (a.setD i v).getD i d = v := by
  simp [Array.getD, Array.size_setD, h, Array.getElem_setD]

theorem getD_setD_ne {α : Type} (a : Array α) (i j : Nat) (v d : α)
    (h : i ≠ j) : (a.setD i v).getD j d = a.getD j d := by
  unfold Array.setD
  split
  · next hi =>
    unfold Array.getD
    simp only [Array.size_set]
    split
    · next hj => exact Array.get_set_ne a ⟨i, hi⟩ v hj h
    · rfl
  · rfl

theorem keyAt_setD_eq (m : Array (Entry K V)) (i : Nat) (e : Entry K V)
    (h : i < m.size) : keyAt (m.setD i e) i = e.key := by
  unfold keyAt; rw [getD_setD_eq _ _ _ _ h]

theorem keyAt_setD_ne (m : Array (Entry K V)) (i j : Nat) (e : Entry K V)
    (h : i ≠ j) : keyAt (m.setD i e) j = keyAt m j := by
  unfold keyAt; rw [getD_setD_ne _ _ _ _ _ h]

theorem valAt_setD_eq (m : Array (Entry K V)) (i : Nat) (e : Entry K V)
    (h : i < m.size) : valAt (m.setD i e) i = e.value := by
  unfold valAt; rw [getD_setD_eq _ _ _ _ h]

theorem valAt_setD_ne (m : Array (Entry K V)) (i j : Nat) (e : Entry K V)
    (h : i ≠ j) : valAt (m.setD i e) j = valAt m j := by
  unfold valAt; rw [getD_setD_ne _ _ _ _ _ h]

theorem keyAt_mkArray (n i : Nat) :
    keyAt (Array.mkArray n (emptyEntry : Entry K V)) i = none := by
  unfold keyAt Array.getD
  split
  · simp [emptyEntry]
  · rfl

theorem keyAt_oob (m : Array (Entry K V)) (i : Nat) (h : ¬ i < m.size) :
    keyAt m i = none := by
  unfold keyAt Array.getD
  rw [dif_neg h]; rfl

theorem countOcc_set (m : Array (Entry K V)) (p : Nat) (e : Entry K V)
    (hp : p < m.size) :
    countOcc (m.setD p e) + (if (keyAt m p).isSome then 1 else 0)
      = countOcc m + (if e.key.isSome then 1 else 0) := by
  unfold countOcc
  rw [Array.size_setD]
  have hmem : p ∈ Finset.range m.size := Finset.mem_range.mpr hp
  rw [← Finset.sum_erase_add _ _ hmem, ← Finset.sum_erase_add _ _ hmem]
  have hcong : ∀ i ∈ (Finset.range m.size).erase p,
      (if (keyAt (m.setD p e) i).isSome then 1 else 0)
        = (if (keyAt m i).isSome then (1:Nat) else 0) := by
    intro i hi
    rw [keyAt_setD_ne _ _ _ _ (Ne.symm (Finset.ne_of_mem_erase hi))]
  rw [Finset.sum_congr rfl hcong, keyAt_setD_eq _ _ _ hp]
  omega

theorem exists_empty_of_countOcc_lt (m : Array (Entry K V))
    (h : countOcc m < m.size) : ∃ e, e < m.size ∧ keyAt m e = none := by
  by_contra hc
  push_neg at hc
  have hall : ∀ i ∈ Finset.range m.size,
      (if (keyAt m i).isSome then (1:Nat) else 0) = 1 := by
    intro i hi
    have := hc i (Finset.mem_range.mp hi)
    cases hk : keyAt m i with
    | none => exact absurd hk this
    | some k => simp
  have : countOcc m = m.size := by
    unfold countOcc
    rw [Finset.sum_congr rfl hall, Finset.sum_const, Finset.card_range,
      smul_eq_mul, mul_one]
  omega

theorem countOcc_mkArray (n : Nat) :
    countOcc (Array.mkArray n (emptyEntry : Entry K V)) = 0 := by
  unfold countOcc
  apply Finset.sum_eq_zero
  intro i _
  rw [keyAt_mkArray]; rfl

theorem probeLoop_stop (hash : K → Nat) (key : K) (m : Array (Entry K V))
    (fuel p : Nat) (h : stopAt key m p) :
    probeLoop hash key m (fuel+1) p = some p := by
  unfold stopAt keyAt at h
  show (match (m.getD p emptyEntry).key with
    | none => some p
    | some pk =>
      if hash key = hash pk ∧ key = pk then some p
      else probeLoop hash key m fuel ((p + 1) % m.size)) = some p
  rcases h with h | h
  · rw [h]
  · rw [h]
    exact if_pos ⟨rfl, rfl⟩

theorem probeLoop_next (hash : K → Nat) (key : K) (m : Array (Entry K V))
    (fuel p : Nat) (h : ¬ stopAt key m p) :
    probeLoop hash key m (fuel+1) p
      = probeLoop hash key m fuel ((p + 1) % m.size) := by
  unfold stopAt at h
  push_neg at h
  obtain ⟨h1, h2⟩ := h
  unfold keyAt at h1 h2
  show (match (m.getD p emptyEntry).key with
    | none => some p
    | some pk =>
      if hash key = hash pk ∧ key = pk then some p
      else probeLoop hash key m fuel ((p + 1) % m.size))
    = probeLoop hash key m fuel ((p + 1) % m.size)
  cases hk : (m.getD p emptyEntry).key with
  | none => exact absurd hk h1
  | some pk =>
    show (if hash key = hash pk ∧ key = pk then some p
      else probeLoop hash key m fuel ((p + 1) % m.size))
      = probeLoop hash key m fuel ((p + 1) % m.size)
    rw [if_neg]
    rintro ⟨-, rfl⟩
    exact h2 hk

/-- The probe loop returns the first stop slot on the forward path from
`start`, provided it lies within `fuel` steps. -/
theorem probeLoop_first (hash : K → Nat) (key : K) (m : Array (Entry K V))
    (cap : Nat) (hsz : m.size = cap) (hcap : 0 < cap) :
    ∀ fuel start tstop, start < cap → tstop < fuel →
      (∀ u, u < tstop → ¬ stopAt key m ((start + u) % cap)) →
      stopAt key m ((start + tstop) % cap) →
      probeLoop hash key m fuel start = some ((start + tstop) % cap) := by
  intro fuel
  induction fuel with
  | zero => intro start tstop _ h; omega
  | succ f ih =>
    intro start tstop hstart hfuel hbefore hstop
    have h0 : (start + 0) % cap = start := by
      rw [Nat.add_zero, Nat.mod_eq_of_lt hstart]
    cases tstop with
    | zero =>
      rw [h0] at hstop ⊢
      exact probeLoop_stop hash key m f start hstop
    | succ u =>
      have hns : ¬ stopAt key m start := by
        have := hbefore 0 (Nat.succ_pos u)
        rwa [h0] at this
      rw [probeLoop_next hash key m f start hns, hsz]
      have hstep : ∀ w, ((start + 1) % cap + w) % cap = (start + (w + 1)) % cap := by
        intro w
        rw [Nat.mod_add_mod]
        congr 1
        omega
      rw [← hstep u]
      apply ih ((start + 1) % cap) u (Nat.mod_lt _ hcap) (by omega)
      · intro w hw
        rw [hstep w]
        exact hbefore (w + 1) (by omega)
      · rw [hstep u]
        exact hstop

theorem home_eq_mod (hash : K → Nat) (k : K) (w : Nat) :
    home hash (2^w) k = hash k % 2^w :=
  Nat.and_pow_two_sub_one_eq_mod (hash k) w

theorem home_lt (hash : K → Nat) (k : K) {cap : Nat} (hpow : ∃ w, cap = 2^w) :
    home hash cap k < cap := by
  obtain ⟨w, rfl⟩ := hpow
  rw [home_eq_mod]
  exact Nat.mod_lt _ (Nat.pos_pow_of_pos w (by omega))

theorem cap_pos {cap : Nat} (hpow : ∃ w, cap = 2^w) : 0 < cap := by
  obtain ⟨w, rfl⟩ := hpow
  exact Nat.pos_pow_of_pos w (by omega)

/-- `Probe` on a key stored at slot `i` returns `i`, given the no-duplicate
and probe-path conditions. -/
theorem Probe_found (hash : K → Nat) (t : QHashMap K V) (k : K) (i : Nat)
    (hsz : t.map.size = t.capacity) (hpow : ∃ w, t.capacity = 2^w)
    (hi : i < t.capacity) (hk : keyAt t.map i = some k)
    (hnodup : ∀ j, j < t.capacity → j ≠ i → keyAt t.map j ≠ some k)
    (hppi : ∀ j, j < t.capacity →
      cdist t.capacity (home hash t.capacity k) j
        < cdist t.capacity (home hash t.capacity k) i →
      keyAt t.map j ≠ none) :
    Probe hash t k = some i := by
  have hcap : 0 < t.capacity := cap_pos hpow
  have hh : home hash t.capacity k < t.capacity := home_lt hash k hpow
  set h := home hash t.capacity k with hdef
  set cap := t.capacity with capdef
  have hpos : (h + cdist cap h i) % cap = i := cdist_cancel hh hi
  unfold Probe
  rw [← hdef, ← capdef, ← hpos]
  apply probeLoop_first hash k t.map cap hsz hcap cap h (cdist cap h i) hh
    (cdist_lt hh hi)
  · intro u hu
    have hu2 : u % cap = u :=
      Nat.mod_eq_of_lt (lt_trans hu (cdist_lt hh hi))
    have hju : cdist cap h ((h + u) % cap) = u := by rw [cdist_step u hh, hu2]
    set j := (h + u) % cap with jdef
    have hj : j < cap := Nat.mod_lt _ hcap
    intro hstopj
    rcases hstopj with hempty | hmatch
    · exact hppi j hj (by rw [hju]; exact hu) hempty
    · have hji : j ≠ i := by
        intro hji
        rw [hji] at hju
        omega
      exact hnodup j hj hji hmatch
  · rw [hpos]
    exact Or.inr hk

/-- `Probe` on an absent key returns the first empty slot on the key's
probe path (which exists when some slot is empty). -/
theorem Probe_notFound (hash : K → Nat) (t : QHashMap K V) (k : K)
    (hsz : t.map.size = t.capacity) (hpow : ∃ w, t.capacity = 2^w)
    (hcnt : countOcc t.map < t.capacity)
    (habs : ∀ i, i < t.capacity → keyAt t.map i ≠ some k) :
    ∃ p, Probe hash t k = some p ∧ p < t.capacity ∧ keyAt t.map p = none ∧
      ∀ j, j < t.capacity →
        cdist t.capacity (home hash t.capacity k) j
          < cdist t.capacity (home hash t.capacity k) p →
        keyAt t.map j ≠ none := by
  have hcap : 0 < t.capacity := cap_pos hpow
  have hh : home hash t.capacity k < t.capacity := home_lt hash k hpow
  set h := home hash t.capacity k with hdef
  set cap := t.capacity with capdef
  obtain ⟨e, he, hke⟩ := exists_empty_of_countOcc_lt t.map (by rw [hsz]; exact hcnt)
  rw [hsz] at he
  have hnonempty : ∃ u, keyAt t.map ((h + u) % cap) = none := by
    refine ⟨cdist cap h e, ?_⟩
    rw [cdist_cancel hh he]
    exact hke
  classical
  set tstop := Nat.find hnonempty with htdef
  have htstop : keyAt t.map ((h + tstop) % cap) = none := Nat.find_spec hnonempty
  have htmin : ∀ u, u < tstop → keyAt t.map ((h + u) % cap) ≠ none :=
    fun u hu => Nat.find_min hnonempty hu
  have htlt : tstop < cap := by
    have hle : tstop ≤ cdist cap h e := by
      apply Nat.find_min' hnonempty
      rw [cdist_cancel hh he]
      exact hke
    have := cdist_lt hh he
    omega
  refine ⟨(h + tstop) % cap, ?_, Nat.mod_lt _ hcap, htstop, ?_⟩
  · unfold Probe
    rw [← hdef, ← capdef]
    apply probeLoop_first hash k t.map cap hsz hcap cap h tstop hh htlt
    · intro u hu
      intro hstopu
      rcases hstopu with hempty | hmatch
      · exact htmin u hu hempty
      · exact habs _ (Nat.mod_lt _ hcap) hmatch
    · exact Or.inl htstop
  · intro j hj hlt
    have hju : cdist cap h ((h + tstop) % cap) = tstop := by
      rw [cdist_step tstop hh, Nat.mod_eq_of_lt htlt]
    rw [hju] at hlt
    have hj2 : j = (h + cdist cap h j) % cap := (cdist_cancel hh hj).symm
    rw [hj2]
    exact htmin _ hlt

theorem WF.occ_lt {hash : K → Nat} {t : QHashMap K V} (h : WF hash t) :
    t.occupancy < t.capacity := by
  have := h.load
  omega

theorem newTable_WF (hash : K → Nat) (w : Nat) :
    WF hash (newTable (2^w) : QHashMap K V) := by
  have hpos : 0 < 2^w := Nat.pos_pow_of_pos w (by omega)
  refine ⟨?_, ⟨w, rfl⟩, ?_, ?_, ?_, ?_⟩
  · simp [newTable]
  · simp [newTable, countOcc_mkArray]
  · simpa [newTable] using hpos
  · intro i j k _ _ hk
    rw [show (newTable (2^w) : QHashMap K V).map = Array.mkArray (2^w) emptyEntry from rfl,
      keyAt_mkArray] at hk
    exact absurd hk (by simp)
  · intro i k _ hk
    rw [show (newTable (2^w) : QHashMap K V).map = Array.mkArray (2^w) emptyEntry from rfl,
      keyAt_mkArray] at hk
    exact absurd hk (by simp)

/-- Two copies of a key in a `NodupArr` array carry the same value. -/
theorem pair_unique {t : QHashMap K V} (hnd : NodupArr t.map t.capacity)
    {k : K} {v v' : Option V} (h : HasPair t k v) (h' : HasPair t k v') :
    v = v' := by
  obtain ⟨i, hi, hki, hvi⟩ := h
  obtain ⟨j, hj, hkj, hvj⟩ := h'
  have := hnd i j k hi hj hki hkj
  subst this
  rw [← hvi, ← hvj]

/-- `Lookup(key, true)` on an absent key, when the insertion stays below
the load-factor threshold: stores the key at the probed slot, increments
`occupancy_`, does not resize, and returns a handle to that slot. -/
theorem LookupAux_insert_noresize (hash : K → Nat) (t : QHashMap K V)
    (k : K) (fuel : Nat)
    (hsz : t.map.size = t.capacity) (hpow : ∃ w, t.capacity = 2^w)
    (hcnt : countOcc t.map < t.capacity)
    (habs : ∀ i, i < t.capacity → keyAt t.map i ≠ some k)
    (hthr : t.occupancy + 1 + (t.occupancy + 1) / 4 < t.capacity) :
    ∃ p, p < t.capacity ∧
      LookupAux hash (fuel+1) k true t = some (some p,
        { t with map := t.map.setD p { t.map.getD p emptyEntry with key := some k },
                 occupancy := t.occupancy + 1 }) ∧
      keyAt t.map p = none ∧
      (∀ j, j < t.capacity →
        cdist t.capacity (home hash t.capacity k) j
          < cdist t.capacity (home hash t.capacity k) p →
        keyAt t.map j ≠ none) := by
  obtain ⟨p, hP, hp, hknone, hpath⟩ := Probe_notFound hash t k hsz hpow hcnt habs
  refine ⟨p, hp, ?_, hknone, hpath⟩
  simp only [LookupAux, hP, hknone]
  rw [if_pos trivial, if_neg (by omega : ¬ (t.capacity ≤ t.occupancy + 1 + (t.occupancy + 1) / 4))]

/-- Storing a fresh key into a slot preserves slot-uniqueness, for any
array pointwise equal off the written slot. -/
theorem NodupArr_insert {m m' : Array (Entry K V)} {cap p : Nat} {k : K}
    (hsame : ∀ a, a ≠ p → keyAt m' a = keyAt m a)
    (hp' : keyAt m' p = some k)
    (habs : ∀ a, a < cap → keyAt m a ≠ some k)
    (hnd : NodupArr m cap) : NodupArr m' cap := by
  intro a b k' ha hb hka hkb
  by_cases hap : a = p
  · by_cases hbp : b = p
    · rw [hap, hbp]
    · subst hap
      rw [hp'] at hka
      rw [hsame b hbp] at hkb
      cases hka
      exact absurd hkb (habs b hb)
  · by_cases hbp : b = p
    · subst hbp
      rw [hp'] at hkb
      rw [hsame a hap] at hka
      cases hkb
      exact absurd hka (habs a ha)
    · rw [hsame a hap] at hka
      rw [hsame b hbp] at hkb
      exact hnd a b k' ha hb hka hkb

/-- Storing a fresh key into the first empty slot of its probe path
preserves the probe-sequence invariant. -/
theorem PpiArr_insert (hash : K → Nat) {m m' : Array (Entry K V)}
    {cap p : Nat} {k : K}
    (hsame : ∀ a, a ≠ p → keyAt m' a = keyAt m a)
    (hp' : keyAt m' p = some k) (hp : p < cap)
    (hpath : ∀ j, j < cap →
      cdist cap (home hash cap k) j < cdist cap (home hash cap k) p →
      keyAt m j ≠ none)
    (hppi : PpiArr hash m cap) : PpiArr hash m' cap := by
  intro a k' ha hka j hj hlt
  have hocc : ∀ j', j' < cap → keyAt m j' ≠ none → keyAt m' j' ≠ none := by
    intro j' _ hne
    by_cases hj' : j' = p
    · rw [hj', hp']; simp
    · rw [hsame j' hj']; exact hne
  by_cases hap : a = p
  · rw [hap] at hka hlt
    rw [hp'] at hka
    injection hka with hkk
    subst hkk
    exact hocc j hj (hpath j hj hlt)
  · rw [hsame a hap] at hka
    exact hocc j hj (hppi a k' ha hka j hj hlt)

theorem countOccFrom_zero (m : Array (Entry K V)) :
    countOccFrom m 0 = countOcc m := by
  unfold countOccFrom countOcc
  rw [Finset.range_eq_Ico]

theorem countOccFrom_end (m : Array (Entry K V)) (i : Nat)
    (h : m.size ≤ i) : countOccFrom m i = 0 := by
  unfold countOccFrom
  rw [Finset.Ico_eq_empty (by omega), Finset.sum_empty]

theorem countOccFrom_step (m : Array (Entry K V)) (i : Nat)
    (h : i < m.size) : countOccFrom m i
      = (if (keyAt m i).isSome then 1 else 0) + countOccFrom m (i+1) := by
  unfold countOccFrom
  exact Finset.sum_eq_sum_Ico_succ_bot h _

theorem countOccFrom_all_empty (m : Array (Entry K V)) (i : Nat)
    (h : countOccFrom m i = 0) :
    ∀ j, i ≤ j → keyAt m j = none := by
  intro j hij
  by_cases hj : j < m.size
  · have hmem : j ∈ Finset.Ico i m.size := Finset.mem_Ico.mpr ⟨hij, hj⟩
    have := Finset.sum_eq_zero_iff.mp h j hmem
    cases hk : keyAt m j with
    | none => rfl
    | some k => rw [hk] at this; simp at this
  · exact keyAt_oob m j hj

theorem rehashWith_zero (ins : K → QHashMap K V → Option (Nat × QHashMap K V))
    (old : Array (Entry K V)) (slots i : Nat) (t : QHashMap K V) :
    rehashWith ins old slots i 0 t = some t := by
  cases slots <;> rfl

theorem rehashWith_skip (ins : K → QHashMap K V → Option (Nat × QHashMap K V))
    (old : Array (Entry K V)) (slots i n : Nat) (t : QHashMap K V)
    (h : keyAt old i = none) :
    rehashWith ins old (slots+1) i (n+1) t
      = rehashWith ins old slots (i+1) (n+1) t := by
  simp only [rehashWith, h]

theorem rehashWith_ins (ins : K → QHashMap K V → Option (Nat × QHashMap K V))
    (old : Array (Entry K V)) (slots i n : Nat) (t : QHashMap K V) (k : K)
    (h : keyAt old i = some k) (q : Nat) (t' : QHashMap K V)
    (hins : ins k t = some (q, t')) :
    rehashWith ins old (slots+1) i (n+1) t
      = rehashWith ins old slots (i+1) n (setValueAt t' q (valAt old i)) := by
  simp only [rehashWith, h, hins]

theorem setD_oob {α : Type} (a : Array α) (i : Nat) (v : α)
    (h : ¬ i < a.size) : a.setD i v = a := by
  unfold Array.setD
  rw [dif_neg h]

theorem setValueAt_keyAt (t : QHashMap K V) (i : Nat) (v : Option V)
    (a : Nat) : keyAt (setValueAt t i v).map a = keyAt t.map a := by
  unfold setValueAt
  by_cases hia : i = a
  · subst hia
    by_cases hi : i < t.map.size
    · rw [keyAt_setD_eq _ _ _ hi]
    · rw [setD_oob _ _ _ hi]
  · rw [keyAt_setD_ne _ _ _ _ hia]

theorem setValueAt_valAt_eq (t : QHashMap K V) (i : Nat) (v : Option V)
    (hi : i < t.map.size) : valAt (setValueAt t i v).map i = v := by
  unfold setValueAt
  rw [valAt_setD_eq _ _ _ hi]

theorem setValueAt_valAt_ne (t : QHashMap K V) (i : Nat) (v : Option V)
    (a : Nat) (ha : i ≠ a) : valAt (setValueAt t i v).map a = valAt t.map a := by
  unfold setValueAt
  rw [valAt_setD_ne _ _ _ _ ha]

theorem setValueAt_size (t : QHashMap K V) (i : Nat) (v : Option V) :
    (setValueAt t i v).map.size = t.map.size := Array.size_setD _ _ _

theorem setValueAt_capacity (t : QHashMap K V) (i : Nat) (v : Option V) :
    (setValueAt t i v).capacity = t.capacity := rfl

theorem setValueAt_occupancy (t : QHashMap K V) (i : Nat) (v : Option V) :
    (setValueAt t i v).occupancy = t.occupancy := rfl

theorem setValueAt_countOcc (t : QHashMap K V) (i : Nat) (v : Option V) :
    countOcc (setValueAt t i v).map = countOcc t.map := by
  by_cases hi : i < t.map.size
  · have hkey : keyAt (setValueAt t i v).map i = keyAt t.map i :=
      setValueAt_keyAt t i v i
    have h := countOcc_set t.map i
      { t.map.getD i emptyEntry with key := keyAt t.map i, value := v } hi
    unfold setValueAt
    unfold keyAt at h
    simp only [keyAt] at h ⊢
    omega
  · unfold setValueAt
    rw [setD_oob _ _ _ hi]

/-- Correctness of the rehash loop: starting from a fresh table and
scanning the old array, it terminates with a well-formed table holding
exactly the old entries, and none of its inserts re-triggers a resize. -/
theorem rehash_spec (hash : K → Nat) (old : Array (Entry K V)) (fl : Nat)
    (N cap2 : Nat) (hpow : ∃ w, cap2 = 2^w) (hload : N + N / 4 < cap2)
    (hndOld : ∀ j j' k, keyAt old j = some k → keyAt old j' = some k → j = j') :
    ∀ slots i n t, slots + i = old.size → countOccFrom old i = n →
      t.capacity = cap2 → t.map.size = cap2 →
      t.occupancy = countOcc t.map → t.occupancy + n = N →
      NodupArr t.map cap2 → PpiArr hash t.map cap2 →
      (∀ k, MemKey t k ↔ ∃ j, j < i ∧ keyAt old j = some k) →
      (∀ j k, j < i → keyAt old j = some k → HasPair t k (valAt old j)) →
      ∃ tf, rehashWith (fun k u =>
          match LookupAux hash (fl+1) k true u with
          | some (some q, u') => some (q, u')
          | _ => none) old slots i n t = some tf ∧
        tf.capacity = cap2 ∧ tf.map.size = cap2 ∧
        tf.occupancy = countOcc tf.map ∧ tf.occupancy = N ∧
        NodupArr tf.map cap2 ∧ PpiArr hash tf.map cap2 ∧
        (∀ k, MemKey tf k ↔ ∃ j, keyAt old j = some k) ∧
        (∀ j k, keyAt old j = some k → HasPair tf k (valAt old j)) := by
  intro slots
  induction slots with
  | zero =>
    intro i n t hsl hcnt hcap hsz hocc hN hnd hppi hmem hpair
    have hi : i = old.size := by omega
    have hn : n = 0 := by
      rw [← hcnt, hi, countOccFrom_end _ _ (le_refl _)]
    subst hn
    refine ⟨t, rehashWith_zero _ _ _ _ _, hcap, hsz, hocc, by omega, hnd, hppi,
      ?_, ?_⟩
    · intro k
      rw [hmem k]
      constructor
      · rintro ⟨j, _, hj⟩; exact ⟨j, hj⟩
      · rintro ⟨j, hj⟩
        refine ⟨j, ?_, hj⟩
        by_contra h
        push_neg at h
        rw [keyAt_oob old j (by omega)] at hj
        exact Option.noConfusion hj
    · intro j k hj
      by_cases h : j < old.size
      · exact hpair j k (by omega) hj
      · rw [keyAt_oob old j h] at hj
        exact Option.noConfusion hj
  | succ slots ih =>
    intro i n t hsl hcnt hcap hsz hocc hN hnd hppi hmem hpair
    cases n with
    | zero =>
      have hempty : ∀ j, i ≤ j → keyAt old j = none :=
        countOccFrom_all_empty old i hcnt
      refine ⟨t, rehashWith_zero _ _ _ _ _, hcap, hsz, hocc, by omega, hnd, hppi,
        ?_, ?_⟩
      · intro k
        rw [hmem k]
        constructor
        · rintro ⟨j, _, hj⟩; exact ⟨j, hj⟩
        · rintro ⟨j, hj⟩
          refine ⟨j, ?_, hj⟩
          by_contra h
          push_neg at h
          rw [hempty j h] at hj
          exact Option.noConfusion hj
      · intro j k hj
        by_cases h : j < i
        · exact hpair j k h hj
        · push_neg at h
          rw [hempty j h] at hj
          exact Option.noConfusion hj
    | succ n' =>
      have hi : i < old.size := by omega
      cases hki : keyAt old i with
      | none =>
        rw [rehashWith_skip _ _ _ _ _ _ hki]
        have hcnt' : countOccFrom old (i+1) = n' + 1 := by
          have hstep := countOccFrom_step old i hi
          rw [hki] at hstep
          simp only [Option.isSome_none, Bool.false_eq_true, if_false] at hstep
          omega
        have hmem' : ∀ k, MemKey t k ↔ ∃ j, j < i + 1 ∧ keyAt old j = some k := by
          intro k
          rw [hmem k]
          constructor
          · rintro ⟨j, hj1, hj2⟩; exact ⟨j, by omega, hj2⟩
          · rintro ⟨j, hj1, hj2⟩
            refine ⟨j, ?_, hj2⟩
            rcases Nat.lt_or_ge j i with h | h
            · exact h
            · have hje : j = i := by omega
              subst hje
              rw [hki] at hj2
              exact Option.noConfusion hj2
        have hpair' : ∀ j k, j < i + 1 → keyAt old j = some k →
            HasPair t k (valAt old j) := by
          intro j k hj hkj
          rcases Nat.lt_or_ge j i with h | h
          · exact hpair j k h hkj
          · have hje : j = i := by omega
            subst hje
            rw [hki] at hkj
            exact Option.noConfusion hkj
        exact ih (i+1) (n'+1) t (by omega) hcnt' hcap hsz hocc hN hnd hppi
          hmem' hpair'
      | some k =>
        have hcnt' : countOccFrom old (i+1) = n' := by
          have hstep := countOccFrom_step old i hi
          rw [hki] at hstep
          simp only [Option.isSome_some, if_true] at hstep
          omega
        have habs : ∀ a, a < t.capacity → keyAt t.map a ≠ some k := by
          intro a ha hka
          have hm : MemKey t k := ⟨a, ha, hka⟩
          rw [hmem k] at hm
          obtain ⟨j, hj1, hj2⟩ := hm
          have := hndOld j i k hj2 hki
          omega
        have hcntlt : countOcc t.map < t.capacity := by
          rw [← hocc, hcap]
          omega
        have hthr : t.occupancy + 1 + (t.occupancy + 1) / 4 < t.capacity := by
          rw [hcap]
          have h1 : t.occupancy + 1 ≤ N := by omega
          have h2 : (t.occupancy + 1)/4 ≤ N/4 := Nat.div_le_div_right h1
          omega
        have hpow' : ∃ w, t.capacity = 2^w := by rw [hcap]; exact hpow
        have hsz' : t.map.size = t.capacity := by rw [hsz, hcap]
        obtain ⟨p, hp, heq, hknone, hpath⟩ :=
          LookupAux_insert_noresize hash t k fl hsz' hpow' hcntlt habs hthr
        set t1 : QHashMap K V :=
          { t with map := t.map.setD p { t.map.getD p emptyEntry with key := some k },
                   occupancy := t.occupancy + 1 } with ht1
        have hins : (fun k u =>
            match LookupAux hash (fl+1) k true u with
            | some (some q, u') => some (q, u')
            | _ => none) k t = some (p, t1) := by
          simp only [heq]
        rw [rehashWith_ins _ _ _ _ _ _ k hki p t1 hins]
        set t2 := setValueAt t1 p (valAt old i) with ht2
        -- slot-level description of t2
        have hpsz : p < t.map.size := by rw [hsz']; exact hp
        have ht1key_p : keyAt t1.map p = some k := by
          rw [ht1]
          exact keyAt_setD_eq _ _ _ hpsz
        have ht1key_ne : ∀ a, a ≠ p → keyAt t1.map a = keyAt t.map a := by
          intro a ha
          rw [ht1]
          exact keyAt_setD_ne _ _ _ _ (fun h => ha h.symm)
        have ht2key_p : keyAt t2.map p = some k := by
          rw [ht2, setValueAt_keyAt]
          exact ht1key_p
        have ht2key_ne : ∀ a, a ≠ p → keyAt t2.map a = keyAt t.map a := by
          intro a ha
          rw [ht2, setValueAt_keyAt]
          exact ht1key_ne a ha
        have ht1psz : p < t1.map.size := by
          rw [ht1]
          simpa [Array.size_setD] using hpsz
        have ht2val_p : valAt t2.map p = valAt old i := by
          rw [ht2]
          exact setValueAt_valAt_eq _ _ _ ht1psz
        have ht2val_ne : ∀ a, a ≠ p → valAt t2.map a = valAt t.map a := by
          intro a ha
          rw [ht2, setValueAt_valAt_ne _ _ _ _ (fun h => ha h.symm), ht1]
          exact valAt_setD_ne _ _ _ _ (fun h => ha h.symm)
        have ht2cap : t2.capacity = cap2 := by
          rw [ht2, setValueAt_capacity, ht1]
          exact hcap
        have ht2sz : t2.map.size = cap2 := by
          rw [ht2, setValueAt_size, ht1]
          simpa [Array.size_setD] using hsz
        have ht2occ : t2.occupancy = t.occupancy + 1 := by
          rw [ht2, setValueAt_occupancy, ht1]
        have ht1cnt : countOcc t1.map = countOcc t.map + 1 := by
          have hc := countOcc_set t.map p
            { t.map.getD p emptyEntry with key := some k } hpsz
          rw [hknone] at hc
          simp only [Option.isSome_none, Option.isSome_some, Bool.false_eq_true,
            if_false, if_true] at hc
          show countOcc (t.map.setD p { t.map.getD p emptyEntry with key := some k })
            = countOcc t.map + 1
          rw [Nat.add_zero] at hc
          exact hc
        have ht2cnt : countOcc t2.map = countOcc t.map + 1 := by
          rw [ht2, setValueAt_countOcc]
          exact ht1cnt
        have ht2occeq : t2.occupancy = countOcc t2.map := by
          rw [ht2occ, ht2cnt, hocc]
        have ht2nd : NodupArr t2.map cap2 := by
          apply NodupArr_insert ht2key_ne ht2key_p
            (fun a ha => habs a (by rw [hcap]; exact ha))
          exact hnd
        have ht2ppi : PpiArr hash t2.map cap2 := by
          apply PpiArr_insert hash ht2key_ne ht2key_p (hcap ▸ hp)
          · intro j hj hlt
            apply hpath j
            · rw [hcap]; exact hj
            · rw [hcap] at *
              convert hlt using 3 <;> rw [hcap]
          · exact hppi
        have hmem' : ∀ k', MemKey t2 k' ↔ ∃ j, j < i + 1 ∧ keyAt old j = some k' := by
          intro k'
          constructor
          · rintro ⟨a, ha, hka⟩
            by_cases hap : a = p
            · subst hap
              rw [ht2key_p] at hka
              injection hka with hkk
              exact ⟨i, by omega, by rw [hki, hkk]⟩
            · rw [ht2key_ne a hap] at hka
              have hm : MemKey t k' := ⟨a, by rw [ht2cap] at ha; rw [hcap]; exact ha, hka⟩
              rw [hmem k'] at hm
              obtain ⟨j, hj1, hj2⟩ := hm
              exact ⟨j, by omega, hj2⟩
          · rintro ⟨j, hj1, hj2⟩
            rcases Nat.lt_or_ge j i with h | h
            · have hm : MemKey t k' := (hmem k').mpr ⟨j, h, hj2⟩
              obtain ⟨a, ha, hka⟩ := hm
              have hap : a ≠ p := by
                intro hap
                rw [hap, hknone] at hka
                exact Option.noConfusion hka
              exact ⟨a, by rw [ht2cap]; rw [hcap] at ha; exact ha,
                by rw [ht2key_ne a hap]; exact hka⟩
            · have hje : j = i := by omega
              subst hje
              rw [hki] at hj2
              injection hj2 with hkk
              exact ⟨p, by rw [ht2cap]; exact hcap ▸ hp,
                by rw [ht2key_p, hkk]⟩
        have hpair' : ∀ j k', j < i + 1 → keyAt old j = some k' →
            HasPair t2 k' (valAt old j) := by
          intro j k' hj hkj
          rcases Nat.lt_or_ge j i with h | h
          · obtain ⟨a, ha, hka, hva⟩ := hpair j k' h hkj
            have hap : a ≠ p := by
              intro hap
              rw [hap, hknone] at hka
              exact Option.noConfusion hka
            refine ⟨a, ?_, ?_, ?_⟩
            · rw [ht2cap]; rw [hcap] at ha; exact ha
            · rw [ht2key_ne a hap]; exact hka
            · rw [ht2val_ne a hap]; exact hva
          · have hje : j = i := by omega
            subst hje
            rw [hki] at hkj
            injection hkj with hkk
            refine ⟨p, ?_, ?_, ?_⟩
            · rw [ht2cap]; exact hcap ▸ hp
            · rw [ht2key_p, hkk]
            · exact ht2val_p
        exact ih (i+1) n' t2 (by omega) hcnt' ht2cap ht2sz ht2occeq
          (by omega) ht2nd ht2ppi hmem' hpair'

theorem nodup_not_elsewhere {m : Array (Entry K V)} {cap i : Nat} {k : K}
    (hnd : NodupArr m cap) (hi : i < cap) (hk : keyAt m i = some k) :
    ∀ j, j < cap → j ≠ i → keyAt m j ≠ some k := by
  intro j hj hne hkj
  exact hne (hnd j i k hj hi hkj hk)

/-- `Lookup` on a present key returns its slot and leaves the table
untouched, for either value of the insert flag. -/
theorem LookupAux_found (hash : K → Nat) (t : QHashMap K V) (k : K)
    (i : Nat) (b : Bool) (fuel : Nat)
    (hsz : t.map.size = t.capacity) (hpow : ∃ w, t.capacity = 2^w)
    (hi : i < t.capacity) (hk : keyAt t.map i = some k)
    (hnd : NodupArr t.map t.capacity) (hppi : PpiArr hash t.map t.capacity) :
    LookupAux hash (fuel+1) k b t = some (some i, t) := by
  have hP : Probe hash t k = some i :=
    Probe_found hash t k i hsz hpow hi hk
      (nodup_not_elsewhere hnd hi hk) (hppi i k hi hk)
  simp only [LookupAux, hP, hk]

/-- `Lookup(key, false)` on an absent key returns `NULL` and the very same
table (no mutation at all). -/
theorem LookupAux_notfound (hash : K → Nat) (t : QHashMap K V) (k : K)
    (fuel : Nat)
    (hsz : t.map.size = t.capacity) (hpow : ∃ w, t.capacity = 2^w)
    (hcnt : countOcc t.map < t.capacity)
    (habs : ∀ i, i < t.capacity → keyAt t.map i ≠ some k) :
    LookupAux hash (fuel+1) k false t = some (none, t) := by
  obtain ⟨p, hP, hp, hknone, -⟩ := Probe_notFound hash t k hsz hpow hcnt habs
  simp only [LookupAux, hP, hknone, Bool.false_eq_true, if_false]

theorem keyAt_lt {m : Array (Entry K V)} {cap j : Nat} {k : K}
    (hsz : m.size = cap) (h : keyAt m j = some k) : j < cap := by
  by_contra hc
  rw [keyAt_oob m j (by omega)] at h
  exact Option.noConfusion h

theorem countOcc_insert (m : Array (Entry K V)) (p : Nat) (k : K)
    (hpsz : p < m.size) (hknone : keyAt m p = none) :
    countOcc (m.setD p { m.getD p emptyEntry with key := some k })
      = countOcc m + 1 := by
  have hc := countOcc_set m p { m.getD p emptyEntry with key := some k } hpsz
  rw [hknone] at hc
  simp only [Option.isSome_none, Option.isSome_some, Bool.false_eq_true,
    if_false, if_true] at hc
  rw [Nat.add_zero] at hc
  exact hc

/-- The step `Lookup` takes on an absent key with the insert flag: store
the key, bump occupancy, then check the load-factor threshold. -/
theorem LookupAux_insert_hit (hash : K → Nat) (fuel : Nat) (key : K)
    (t : QHashMap K V) (p : Nat)
    (hP : Probe hash t key = some p) (hknone : keyAt t.map p = none) :
    LookupAux hash (fuel+1) key true t =
      (if t.capacity ≤ t.occupancy + 1 + (t.occupancy + 1) / 4 then
        match ResizeWith (fun k u =>
            match LookupAux hash fuel k true u with
            | some (some q, u') => some (q, u')
            | _ => none)
          { t with map := t.map.setD p { t.map.getD p emptyEntry with key := some key },
                   occupancy := t.occupancy + 1 } with
        | none => none
        | some t2 =>
          match Probe hash t2 key with
          | none => none
          | some p2 => some (some p2, t2)
      else some (some p,
        { t with map := t.map.setD p { t.map.getD p emptyEntry with key := some key },
                 occupancy := t.occupancy + 1 })) := by
  simp only [LookupAux, hP, hknone, if_pos trivial]

/-- `Lookup(key, true)` on an absent key stores the key at the probed slot,
increments `occupancy_`, doubles the capacity exactly when the integer
load-factor threshold is reached, and returns a handle to the key's entry
in the final (post-resize) backing array.  Every other key's (key, value)
pair is preserved. -/
theorem LookupAux_insert_spec (hash : K → Nat) (t : QHashMap K V) (k : K)
    (fl : Nat) (hWF : WF hash t)
    (habs : ∀ i, i < t.capacity → keyAt t.map i ≠ some k) :
    ∃ p t', LookupAux hash (fl+1+1) k true t = some (some p, t') ∧
      WF hash t' ∧ p < t'.capacity ∧ keyAt t'.map p = some k ∧
      t'.occupancy = t.occupancy + 1 ∧
      t'.capacity = (if t.capacity ≤ t.occupancy + 1 + (t.occupancy + 1)/4
        then t.capacity * 2 else t.capacity) ∧
      (∀ k' v, k' ≠ k → (HasPair t k' v ↔ HasPair t' k' v)) ∧
      (∀ k', MemKey t' k' ↔ (k' = k ∨ MemKey t k')) := by
  have hcap0 : 0 < t.capacity := cap_pos hWF.pow2
  have hcnt : countOcc t.map < t.capacity := by
    rw [← hWF.occ_eq]; exact hWF.occ_lt
  obtain ⟨p, hP, hp, hknone, hpath⟩ :=
    Probe_notFound hash t k hWF.size_eq hWF.pow2 hcnt habs
  set t1 : QHashMap K V :=
    { t with map := t.map.setD p { t.map.getD p emptyEntry with key := some k },
             occupancy := t.occupancy + 1 } with ht1
  have hpsz : p < t.map.size := by rw [hWF.size_eq]; exact hp
  have ht1cap : t1.capacity = t.capacity := rfl
  have ht1occ : t1.occupancy = t.occupancy + 1 := rfl
  have ht1sz : t1.map.size = t.capacity := by
    rw [ht1]
    simpa [Array.size_setD] using hWF.size_eq
  have ht1key_p : keyAt t1.map p = some k := by
    rw [ht1]; exact keyAt_setD_eq _ _ _ hpsz
  have ht1key_ne : ∀ a, a ≠ p → keyAt t1.map a = keyAt t.map a := by
    intro a ha
    rw [ht1]
    exact keyAt_setD_ne _ _ _ _ (fun h => ha h.symm)
  have ht1val_ne : ∀ a, a ≠ p → valAt t1.map a = valAt t.map a := by
    intro a ha
    rw [ht1]
    exact valAt_setD_ne _ _ _ _ (fun h => ha h.symm)
  have ht1cnt : countOcc t1.map = countOcc t.map + 1 := by
    rw [ht1]
    exact countOcc_insert t.map p k hpsz hknone
  have ht1nd : NodupArr t1.map t.capacity :=
    NodupArr_insert ht1key_ne ht1key_p habs hWF.nodup
  have ht1ppi : PpiArr hash t1.map t.capacity :=
    PpiArr_insert hash ht1key_ne ht1key_p hp hpath hWF.ppi
  have ht1pairs : ∀ k' v, k' ≠ k → (HasPair t k' v ↔ HasPair t1 k' v) := by
    intro k' v hne
    constructor
    · rintro ⟨a, ha, hka, hva⟩
      have hap : a ≠ p := by
        intro h
        rw [h, hknone] at hka
        exact Option.noConfusion hka
      exact ⟨a, ha, by rw [ht1key_ne a hap]; exact hka,
        by rw [ht1val_ne a hap]; exact hva⟩
    · rintro ⟨a, ha, hka, hva⟩
      by_cases hap : a = p
      · rw [hap, ht1key_p] at hka
        injection hka with h
        exact absurd h.symm hne
      · rw [ht1key_ne a hap] at hka
        rw [ht1val_ne a hap] at hva
        exact ⟨a, ha, hka, hva⟩
  have ht1mem : ∀ k', MemKey t1 k' ↔ (k' = k ∨ MemKey t k') := by
    intro k'
    constructor
    · rintro ⟨a, ha, hka⟩
      by_cases hap : a = p
      · rw [hap, ht1key_p] at hka
        injection hka with h
        exact Or.inl h.symm
      · rw [ht1key_ne a hap] at hka
        exact Or.inr ⟨a, ha, hka⟩
    · rintro (rfl | ⟨a, ha, hka⟩)
      · exact ⟨p, hp, ht1key_p⟩
      · have hap : a ≠ p := by
          intro h
          rw [h, hknone] at hka
          exact Option.noConfusion hka
        exact ⟨a, ha, by rw [ht1key_ne a hap]; exact hka⟩
  by_cases hthr : t.capacity ≤ t.occupancy + 1 + (t.occupancy + 1) / 4
  · -- resize branch
    obtain ⟨w, hw⟩ := hWF.pow2
    have hpow2 : ∃ w', t.capacity * 2 = 2^w' := ⟨w+1, by rw [hw, pow_succ]⟩
    have hload : (t.occupancy + 1) + (t.occupancy + 1) / 4 < t.capacity * 2 := by
      have h1 : t.occupancy + 1 ≤ t.capacity := hWF.occ_lt
      have h2 : (t.occupancy + 1) / 4 ≤ t.capacity / 4 := Nat.div_le_div_right h1
      omega
    have hndOld : ∀ j j' k'', keyAt t1.map j = some k'' →
        keyAt t1.map j' = some k'' → j = j' := by
      intro j j' k'' hj hj'
      exact ht1nd j j' k'' (keyAt_lt ht1sz hj) (keyAt_lt ht1sz hj') hj hj'
    have h0 := rehash_spec hash t1.map fl (t.occupancy + 1) (t.capacity * 2)
      hpow2 hload hndOld t1.map.size 0 t1.occupancy (newTable (t.capacity * 2))
      (by omega) (by rw [countOccFrom_zero, ht1cnt, ← hWF.occ_eq])
      rfl (by simp [newTable]) (by simp [newTable, countOcc_mkArray])
      (by show 0 + t1.occupancy = t.occupancy + 1
          rw [ht1occ, Nat.zero_add])
      (by intro a b k'' _ _ hka
          rw [show (newTable (t.capacity * 2) : QHashMap K V).map
            = Array.mkArray (t.capacity * 2) emptyEntry from rfl,
            keyAt_mkArray] at hka
          exact Option.noConfusion hka)
      (by intro a k'' _ hka
          rw [show (newTable (t.capacity * 2) : QHashMap K V).map
            = Array.mkArray (t.capacity * 2) emptyEntry from rfl,
            keyAt_mkArray] at hka
          exact Option.noConfusion hka)
      (by intro k'
          constructor
          · rintro ⟨a, ha, hka⟩
            rw [show (newTable (t.capacity * 2) : QHashMap K V).map
              = Array.mkArray (t.capacity * 2) emptyEntry from rfl,
              keyAt_mkArray] at hka
            exact Option.noConfusion hka
          · rintro ⟨j, hj, -⟩
            omega)
      (by intro j k'' hj
          omega)
    obtain ⟨tf, heqR, htfcap, htfsz, htfocceq, htfoccN, htfnd, htfppi,
      htfmem, htfpairs⟩ := h0
    have heqRW : ResizeWith (fun k u =>
        match LookupAux hash (fl+1) k true u with
        | some (some q, u') => some (q, u')
        | _ => none) t1 = some tf := heqR
    have hmemtf : MemKey tf k := (htfmem k).mpr ⟨p, ht1key_p⟩
    obtain ⟨i2, hi2, hki2⟩ := hmemtf
    have htfszcap : tf.map.size = tf.capacity := by rw [htfsz, htfcap]
    have htfpow : ∃ w', tf.capacity = 2^w' := by rw [htfcap]; exact hpow2
    have htfnd' : NodupArr tf.map tf.capacity := by rw [htfcap]; exact htfnd
    have htfppi' : PpiArr hash tf.map tf.capacity := by rw [htfcap]; exact htfppi
    have hPf : Probe hash tf k = some i2 :=
      Probe_found hash tf k i2 htfszcap htfpow hi2 hki2
        (nodup_not_elsewhere htfnd' hi2 hki2) (htfppi' i2 k hi2 hki2)
    refine ⟨i2, tf, ?_, ?_, hi2, hki2, htfoccN, ?_, ?_, ?_⟩
    · rw [LookupAux_insert_hit hash (fl+1) k t p hP hknone, if_pos hthr,
        ← ht1]
      simp only [heqRW, hPf]
    · exact ⟨htfszcap, htfpow, htfocceq, by rw [htfoccN, htfcap]; exact hload,
        htfnd', htfppi'⟩
    · rw [if_pos hthr, htfcap]
    · intro k' v hne
      rw [ht1pairs k' v hne]
      constructor
      · rintro ⟨a, ha, hka, hva⟩
        rw [← hva]
        exact htfpairs a k' hka
      · intro hf
        obtain ⟨a2, ha2, hka2, hva2⟩ := hf
        have hm : ∃ j, keyAt t1.map j = some k' := (htfmem k').mp ⟨a2, ha2, hka2⟩
        obtain ⟨j, hj⟩ := hm
        have hfj : HasPair tf k' (valAt t1.map j) := htfpairs j k' hj
        have hveq : v = valAt t1.map j :=
          pair_unique htfnd' ⟨a2, ha2, hka2, hva2⟩ hfj
        exact ⟨j, keyAt_lt ht1sz hj, hj, hveq.symm⟩
    · intro k'
      rw [← ht1mem k', htfmem k']
      constructor
      · rintro ⟨j, hj⟩
        exact ⟨j, keyAt_lt ht1sz hj, hj⟩
      · rintro ⟨j, hj1, hj2⟩
        exact ⟨j, hj2⟩
  · -- no-resize branch
    refine ⟨p, t1, ?_, ?_, hp, ht1key_p, ht1occ, ?_, ht1pairs, ht1mem⟩
    · rw [LookupAux_insert_hit hash (fl+1) k t p hP hknone, if_neg hthr,
        ← ht1]
    · exact ⟨by rw [ht1sz, ht1cap], by rw [ht1cap]; exact hWF.pow2,
        by rw [ht1occ, ht1cnt, hWF.occ_eq],
        by rw [ht1occ, ht1cap]; omega,
        by rw [ht1cap]; exact ht1nd, by rw [ht1cap]; exact ht1ppi⟩
    · rw [if_neg hthr, ht1cap]

theorem cdist_next {cap q e : Nat} (hq : q < cap) (he : e < cap)
    (hne : q ≠ e) : cdist cap ((q+1) % cap) e = cdist cap q e - 1 := by
  by_cases hwrap : q + 1 = cap
  · rw [hwrap, Nat.mod_self]
    rw [cdist_closed (by omega) he, cdist_closed hq he]
    split_ifs <;> omega
  · rw [Nat.mod_eq_of_lt (by omega)]
    rw [cdist_closed (by omega) he, cdist_closed hq he]
    split_ifs <;> omega

/-- The wrap-aware interval test of `Remove`, characterized through the
cyclic distance: the entry at `q` is moved back exactly when its home `r`
is the pending slot itself or lies outside the arc `(p, q]`. -/
theorem guard_iff {cap p q r : Nat} (hp : p < cap) (hq : q < cap)
    (hr : r < cap) (hne : q ≠ p) :
    ((q > p ∧ (r ≤ p ∨ r > q)) ∨ (q < p ∧ (r ≤ p ∧ r > q)))
      ↔ (cdist cap p r = 0 ∨ cdist cap p q < cdist cap p r) := by
  rw [cdist_closed hp hr, cdist_closed hp hq]
  split_ifs <;> omega

theorem removeLoop_break (hash : K → Nat) (cap fuel : Nat)
    (m : Array (Entry K V)) (p q0 q' : Nat)
    (hq' : (if q0 + 1 = cap then 0 else q0 + 1) = q')
    (h : keyAt m q' = none) :
    removeLoop hash cap (fuel+1) m p q0 = some (m, p) := by
  simp only [removeLoop, hq', h]

theorem removeLoop_move (hash : K → Nat) (cap fuel : Nat)
    (m : Array (Entry K V)) (p q0 q' : Nat) (kq : K)
    (hq' : (if q0 + 1 = cap then 0 else q0 + 1) = q')
    (h : keyAt m q' = some kq)
    (hg : (q' > p ∧ (hash kq &&& (cap-1) ≤ p ∨ hash kq &&& (cap-1) > q')) ∨
      (q' < p ∧ (hash kq &&& (cap-1) ≤ p ∧ hash kq &&& (cap-1) > q'))) :
    removeLoop hash cap (fuel+1) m p q0
      = removeLoop hash cap fuel (m.setD p (m.getD q' emptyEntry)) q' q' := by
  simp only [removeLoop, hq', h, if_pos hg]

theorem removeLoop_stay (hash : K → Nat) (cap fuel : Nat)
    (m : Array (Entry K V)) (p q0 q' : Nat) (kq : K)
    (hq' : (if q0 + 1 = cap then 0 else q0 + 1) = q')
    (h : keyAt m q' = some kq)
    (hg : ¬ ((q' > p ∧ (hash kq &&& (cap-1) ≤ p ∨ hash kq &&& (cap-1) > q')) ∨
      (q' < p ∧ (hash kq &&& (cap-1) ≤ p ∧ hash kq &&& (cap-1) > q')))) :
    removeLoop hash cap (fuel+1) m p q0
      = removeLoop hash cap fuel m p q' := by
  simp only [removeLoop, hq', h, if_neg hg]

theorem cdist_succ_ne {cap p q q' : Nat} (hp : p < cap) (hq : q < cap)
    (hq'mod : q' = (q+1) % cap) (hne : q' ≠ p) :
    cdist cap p q' = cdist cap p q + 1 := by
  have hcap0 : 0 < cap := by omega
  have h : cdist cap p q' = (cdist cap p q + 1) % cap := by
    rw [hq'mod]; exact cdist_succ hp hq
  by_cases hc : cdist cap p q + 1 = cap
  · exfalso
    apply hne
    have hq'lt : q' < cap := by rw [hq'mod]; exact Nat.mod_lt _ hcap0
    have h0 : cdist cap p q' = 0 := by rw [h, hc, Nat.mod_self]
    exact ((cdist_eq_zero_iff hp hq'lt).mp h0).symm
  · rw [h, Nat.mod_eq_of_lt (by have := cdist_lt hp hq; omega)]

/-- The slide-back loop terminates (an empty slot is reachable) and
establishes `RemOut`: the classic open-addressing deletion argument. -/
theorem removeLoop_run (hash : K → Nat) (cap : Nat) (hpow : ∃ w, cap = 2^w)
    (m0 : Array (Entry K V)) (p0 : Nat) (e : Nat) (he : e < cap) :
    ∀ fuel m p q, RemInv hash cap m0 p0 m p q →
      keyAt m e = none →
      0 < cdist cap q e → cdist cap q e ≤ fuel →
      ∃ m' p', removeLoop hash cap fuel m p q = some (m', p') ∧
        RemOut hash cap m0 p0 m' p' := by
  intro fuel
  induction fuel with
  | zero =>
    intro m p q _ _ h1 h2
    omega
  | succ f ih =>
    intro m p q hinv hke hpos hfuel
    have hcap0 : 0 < cap := by omega
    set q' := if q + 1 = cap then 0 else q + 1 with hq1eq
    have hq'mod : q' = (q + 1) % cap := by
      rw [hq1eq]
      by_cases h : q + 1 = cap
      · rw [if_pos h, h, Nat.mod_self]
      · have := hinv.hq
        rw [if_neg h, Nat.mod_eq_of_lt (by omega)]
    have hq'lt : q' < cap := by
      rw [hq'mod]; exact Nat.mod_lt _ hcap0
    have hqe : q ≠ e := by
      intro h
      have := (cdist_eq_zero_iff hinv.hq he).mpr h
      omega
    have hnext : cdist cap q' e = cdist cap q e - 1 := by
      rw [hq'mod]; exact cdist_next hinv.hq he hqe
    cases hkq' : keyAt m q' with
    | none =>
      refine ⟨m, p, removeLoop_break hash cap f m p q q' hq1eq.symm hkq', ?_⟩
      have hq'p : q' ≠ p := by
        intro h; rw [h] at hkq'; exact hinv.pending hkq'
      refine ⟨hinv.size_eq, hinv.hp, hinv.pending, hinv.cnt, ?_, hinv.nd,
        hinv.content⟩
      intro i k' hi hip hki
      obtain ⟨hpath, hbeyond⟩ := hinv.cond i k' hi hip hki
      refine ⟨hpath, ?_⟩
      intro hpin
      have hbq := hbeyond hpin
      have hpq' : cdist cap p q' = cdist cap p q + 1 :=
        cdist_succ_ne hinv.hp hinv.hq hq'mod hq'p
      have hiq' : i ≠ q' := by
        intro h; rw [h, hkq'] at hki; exact Option.noConfusion hki
      have h2 : cdist cap p q' ≠ cdist cap p i := by
        intro h
        exact hiq' (cdist_inj hinv.hp hq'lt hi h).symm
      have hh' : home hash cap k' < cap := home_lt hash k' hpow
      have hd1 : cdist cap (home hash cap k') i
          = cdist cap (home hash cap k') p + cdist cap p i :=
        cdist_decomp hh' hinv.hp hi (le_of_lt hpin)
      have hlti : cdist cap (home hash cap k') i < cap := cdist_lt hh' hi
      have hd2 : cdist cap (home hash cap k') q'
          = cdist cap (home hash cap k') p + cdist cap p q' :=
        cdist_collapse hh' hinv.hp hq'lt (by omega)
      have hlt2 : cdist cap (home hash cap k') q'
          < cdist cap (home hash cap k') i := by omega
      exact absurd hkq' (hpath q' hq'lt hlt2)
    | some kq =>
      have hrhome : hash kq &&& (cap - 1) = home hash cap kq := rfl
      have hr : hash kq &&& (cap - 1) < cap := by
        rw [hrhome]; exact home_lt hash kq hpow
      have hq'e : q' ≠ e := by
        intro h; rw [h, hke] at hkq'; exact Option.noConfusion hkq'
      have hpos' : 0 < cdist cap q' e :=
        Nat.pos_of_ne_zero (fun h => hq'e ((cdist_eq_zero_iff hq'lt he).mp h))
      have hfuel' : cdist cap q' e ≤ f := by omega
      by_cases hg : (q' > p ∧ (hash kq &&& (cap-1) ≤ p ∨ hash kq &&& (cap-1) > q')) ∨
          (q' < p ∧ (hash kq &&& (cap-1) ≤ p ∧ hash kq &&& (cap-1) > q'))
      · -- move the entry at q' back to p, q' becomes the pending slot
        have hq'p : q' ≠ p := by
          rcases hg with ⟨h, -⟩ | ⟨h, -⟩ <;> omega
        have hgc : cdist cap p (home hash cap kq) = 0 ∨
            cdist cap p q' < cdist cap p (home hash cap kq) := by
          rw [← hrhome]
          exact (guard_iff hinv.hp hq'lt hr hq'p).mp hg
        set m' := m.setD p (m.getD q' emptyEntry) with hm1eq
        have hpsz : p < m.size := by rw [hinv.size_eq]; exact hinv.hp
        have hm'key_p : keyAt m' p = keyAt m q' := by
          rw [hm1eq]; exact keyAt_setD_eq _ _ _ hpsz
        have hm'val_p : valAt m' p = valAt m q' := by
          rw [hm1eq]; exact valAt_setD_eq _ _ _ hpsz
        have hm'ne : ∀ a, a ≠ p → keyAt m' a = keyAt m a := by
          intro a ha
          rw [hm1eq]; exact keyAt_setD_ne _ _ _ _ (fun h => ha h.symm)
        have hm'valne : ∀ a, a ≠ p → valAt m' a = valAt m a := by
          intro a ha
          rw [hm1eq]; exact valAt_setD_ne _ _ _ _ (fun h => ha h.symm)
        have hmono : ∀ j, keyAt m j ≠ none → keyAt m' j ≠ none := by
          intro j hj
          by_cases hjp : j = p
          · rw [hjp, hm'key_p, hkq']; exact Option.noConfusion
          · rw [hm'ne j hjp]; exact hj
        have hinv' : RemInv hash cap m0 p0 m' q' q' := by
          refine ⟨by rw [hm1eq, Array.size_setD]; exact hinv.size_eq,
            hq'lt, hq'lt, ?_, ?_, ?_, ?_, ?_⟩
          · rw [hm'ne q' hq'p, hkq']; exact Option.noConfusion
          · -- occupancy count is preserved: p stays occupied
            have hc := countOcc_set m p (m.getD q' emptyEntry) hpsz
            have hkp : (keyAt m p).isSome = true := by
              cases hkp' : keyAt m p with
              | none => exact absurd hkp' hinv.pending
              | some _ => rfl
            have hkq2 : ((m.getD q' emptyEntry).key).isSome = true := by
              show (keyAt m q').isSome = true
              rw [hkq']; rfl
            rw [hkp, hkq2] at hc
            simp only [if_true] at hc
            rw [← hinv.cnt]
            show countOcc m' = countOcc m
            rw [hm1eq]
            omega
          · intro i k' hi hiq' hki
            constructor
            · -- the physical probe paths stay unbroken
              intro j hj hlt
              by_cases hip : i = p
              · -- the moved entry: its home is outside (p, q'], so its new
                -- path from home to p is within its old path to q'
                rw [hip, hm'key_p, hkq'] at hki
                injection hki with hkk
                subst hkk
                rw [hip] at hlt
                have hpath := (hinv.cond q' kq hq'lt hq'p hkq').1
                have hrp : cdist cap (home hash cap kq) p
                    ≤ cdist cap (home hash cap kq) q' := by
                  rcases hgc with h0 | hblt
                  · have : p = home hash cap kq :=
                      (cdist_eq_zero_iff hinv.hp (home_lt hash kq hpow)).mp h0
                    rw [← this]
                    have : cdist cap p p = 0 :=
                      (cdist_eq_zero_iff hinv.hp hinv.hp).mpr rfl
                    omega
                  · have hh2 : home hash cap kq < cap := home_lt hash kq hpow
                    have hrp' : home hash cap kq ≠ p := by
                      intro h
                      rw [h] at hblt
                      have : cdist cap p p = 0 :=
                        (cdist_eq_zero_iff hinv.hp hinv.hp).mpr rfl
                      omega
                    have hq'r : q' ≠ home hash cap kq := by
                      intro h
                      rw [← h] at hblt
                      omega
                    have hdec : cdist cap p (home hash cap kq)
                        = cdist cap p q' + cdist cap q' (home hash cap kq) :=
                      cdist_decomp hinv.hp hq'lt hh2 (le_of_lt hblt)
                    have hs1 := cdist_symm_add hinv.hp hh2 (fun h => hrp' h.symm)
                    have hs2 := cdist_symm_add hq'lt hh2 hq'r
                    have hblt2 := cdist_lt hinv.hp hq'lt
                    omega
                exact hmono j (hpath j hj (by omega))
              · rw [hm'ne i hip] at hki
                exact hmono j ((hinv.cond i k' hi hip hki).1 j hj hlt)
            · -- the freshly reset scan arc is empty
              intro hlt
              have : cdist cap q' q' = 0 :=
                (cdist_eq_zero_iff hq'lt hq'lt).mpr rfl
              have : cdist cap q' i ≠ 0 := by
                intro h
                exact hiq' ((cdist_eq_zero_iff hq'lt hi).mp h).symm
              omega
          · intro a b k'' ha hb haq' hbq' hka hkb
            by_cases hap : a = p
            · by_cases hbp : b = p
              · rw [hap, hbp]
              · rw [hap, hm'key_p, hkq'] at hka
                injection hka with hkk
                rw [hm'ne b hbp] at hkb
                rw [← hkk] at hkb
                exact absurd (hinv.nd b q' kq hb hq'lt hbp hq'p hkb hkq') hbq'
            · by_cases hbp : b = p
              · rw [hbp, hm'key_p, hkq'] at hkb
                injection hkb with hkk
                rw [hm'ne a hap] at hka
                rw [← hkk] at hka
                exact absurd (hinv.nd a q' kq ha hq'lt hap hq'p hka hkq') haq'
              · rw [hm'ne a hap] at hka
                rw [hm'ne b hbp] at hkb
                exact hinv.nd a b k'' ha hb hap hbp hka hkb
          · intro k' v
            rw [← hinv.content k' v]
            constructor
            · rintro ⟨i, hi, hiq', hk, hv⟩
              by_cases hip : i = p
              · rw [hip, hm'key_p] at hk
                rw [hip, hm'val_p] at hv
                exact ⟨q', hq'lt, hq'p, hk, hv⟩
              · rw [hm'ne i hip] at hk
                rw [hm'valne i hip] at hv
                exact ⟨i, hi, hip, hk, hv⟩
            · rintro ⟨i, hi, hip, hk, hv⟩
              by_cases hiq' : i = q'
              · refine ⟨p, hinv.hp, fun h => hq'p h.symm, ?_, ?_⟩
                · rw [hm'key_p, ← hiq']; exact hk
                · rw [hm'val_p, ← hiq']; exact hv
              · refine ⟨i, hi, hiq', ?_, ?_⟩
                · rw [hm'ne i hip]; exact hk
                · rw [hm'valne i hip]; exact hv
        have hke' : keyAt m' e = none := by
          have hep : e ≠ p := by
            intro h
            rw [← h] at hinv
            exact hinv.pending hke
          rw [hm'ne e hep]; exact hke
        obtain ⟨mf, pf, heq, hout⟩ := ih m' q' q' hinv' hke' hpos' hfuel'
        refine ⟨mf, pf, ?_, hout⟩
        rw [removeLoop_move hash cap f m p q q' kq hq1eq.symm hkq' hg]
        exact heq
      · -- leave the entry in place, continue scanning
        have hinv' : RemInv hash cap m0 p0 m p q' := by
          refine ⟨hinv.size_eq, hinv.hp, hq'lt, hinv.pending, hinv.cnt, ?_,
            hinv.nd, hinv.content⟩
          intro i k' hi hip hki
          obtain ⟨h1, h2⟩ := hinv.cond i k' hi hip hki
          refine ⟨h1, ?_⟩
          intro hpin
          by_cases hq'p : q' = p
          · rw [hq'p]
            have : cdist cap p p = 0 :=
              (cdist_eq_zero_iff hinv.hp hinv.hp).mpr rfl
            have : cdist cap p i ≠ 0 := by
              intro h
              exact hip ((cdist_eq_zero_iff hinv.hp hi).mp h).symm
            omega
          · have hbq := h2 hpin
            have hpq' : cdist cap p q' = cdist cap p q + 1 :=
              cdist_succ_ne hinv.hp hinv.hq hq'mod hq'p
            have hgc : ¬ (cdist cap p (home hash cap kq) = 0 ∨
                cdist cap p q' < cdist cap p (home hash cap kq)) := by
              rw [← hrhome]
              exact fun h => hg ((guard_iff hinv.hp hq'lt hr hq'p).mpr h)
            push_neg at hgc
            obtain ⟨ha0, hale⟩ := hgc
            have hiq' : i ≠ q' := by
              intro hiq
              rw [hiq, hkq'] at hki
              injection hki with hkk
              subst hkk
              -- the entry at q' has its home inside (p, q']: its path does
              -- not pass through p, contradicting hpin
              have hh2 : home hash cap kq < cap := home_lt hash kq hpow
              have hrp : home hash cap kq ≠ p := by
                intro h
                exact ha0 ((cdist_eq_zero_iff hinv.hp hh2).mpr h.symm)
              have hdec : cdist cap p q'
                  = cdist cap p (home hash cap kq) + cdist cap (home hash cap kq) q' :=
                cdist_decomp hinv.hp hh2 hq'lt hale
              have hs1 := cdist_symm_add hinv.hp hh2 (fun h => hrp h.symm)
              have hltq' := cdist_lt hinv.hp hq'lt
              rw [hiq] at hpin
              omega
            have hne2 : cdist cap p q' ≠ cdist cap p i := by
              intro h
              exact hiq' (cdist_inj hinv.hp hq'lt hi h).symm
            omega
        obtain ⟨mf, pf, heq, hout⟩ := ih m p q' hinv' hke hpos' hfuel'
        refine ⟨mf, pf, ?_, hout⟩
        rw [removeLoop_stay hash cap f m p q q' kq hq1eq.symm hkq' hg]
        exact heq

/-- Pointwise form of the one-slot counting lemma: if `mm` agrees with `m`
off slot `p`, the occupied counts differ only by the occupancy of `p`. -/
theorem countOcc_update (m mm : Array (Entry K V)) (p : Nat)
    (hp : p < m.size) (hsz : mm.size = m.size)
    (hsame : ∀ i, i ≠ p → keyAt mm i = keyAt m i) :
    countOcc mm + (if (keyAt m p).isSome then 1 else 0)
      = countOcc m + (if (keyAt mm p).isSome then 1 else 0) := by
  unfold countOcc
  rw [hsz]
  have hmem : p ∈ Finset.range m.size := Finset.mem_range.mpr hp
  rw [← Finset.sum_erase_add _ _ hmem, ← Finset.sum_erase_add _ _ hmem]
  have hcong : ∀ i ∈ (Finset.range m.size).erase p,
      (if (keyAt mm i).isSome then 1 else 0)
        = (if (keyAt m i).isSome then (1:Nat) else 0) := by
    intro i hi
    rw [hsame i (Finset.ne_of_mem_erase hi)]
  rw [Finset.sum_congr rfl hcong]
  omega

/-- `Remove` on an absent key returns `false` and the very same table. -/
theorem Remove_absent_spec (hash : K → Nat) (t : QHashMap K V) (k : K)
    (hWF : WF hash t)
    (habs : ∀ i, i < t.capacity → keyAt t.map i ≠ some k) :
    Remove hash t k = some (false, t) := by
  have hcnt : countOcc t.map < t.capacity := by
    rw [← hWF.occ_eq]; exact hWF.occ_lt
  obtain ⟨p, hP, hp, hknone, -⟩ :=
    Probe_notFound hash t k hWF.size_eq hWF.pow2 hcnt habs
  simp only [Remove, hP, hknone]

/-- `Remove` on a present key returns `true`, keeps the table well-formed,
decrements occupancy, and preserves every other key's (key, value) pair:
the slide-back repair never orphans a live key. -/
theorem Remove_found_spec (hash : K → Nat) (t : QHashMap K V) (k : K)
    (i0 : Nat) (hWF : WF hash t) (hi0 : i0 < t.capacity)
    (hk0 : keyAt t.map i0 = some k) :
    ∃ t', Remove hash t k = some (true, t') ∧ WF hash t' ∧
      t'.capacity = t.capacity ∧ t'.occupancy = t.occupancy - 1 ∧
      (∀ k' v, k' ≠ k → (HasPair t k' v ↔ HasPair t' k' v)) ∧
      (∀ k', MemKey t' k' ↔ (k' ≠ k ∧ MemKey t k')) := by
  have hP : Probe hash t k = some i0 :=
    Probe_found hash t k i0 hWF.size_eq hWF.pow2 hi0 hk0
      (nodup_not_elsewhere hWF.nodup hi0 hk0) (hWF.ppi i0 k hi0 hk0)
  have hcnt : countOcc t.map < t.capacity := by
    rw [← hWF.occ_eq]; exact hWF.occ_lt
  obtain ⟨e, he, hke⟩ := exists_empty_of_countOcc_lt t.map
    (by rw [hWF.size_eq]; exact hcnt)
  rw [hWF.size_eq] at he
  have hinv : RemInv hash t.capacity t.map i0 t.map i0 i0 := by
    refine ⟨hWF.size_eq, hi0, hi0, by rw [hk0]; exact Option.noConfusion, rfl,
      ?_, ?_, ?_⟩
    · intro i k' hi hip hki
      refine ⟨hWF.ppi i k' hi hki, ?_⟩
      intro _
      have h1 : cdist t.capacity i0 i0 = 0 :=
        (cdist_eq_zero_iff hi0 hi0).mpr rfl
      have h2 : cdist t.capacity i0 i ≠ 0 := by
        intro h
        exact hip ((cdist_eq_zero_iff hi0 hi).mp h).symm
      omega
    · intro a b k'' ha hb _ _ hka hkb
      exact hWF.nodup a b k'' ha hb hka hkb
    · intro k' v
      exact Iff.rfl
  have hei0 : e ≠ i0 := by
    intro h
    rw [h, hk0] at hke
    exact Option.noConfusion hke
  have hpos : 0 < cdist t.capacity i0 e :=
    Nat.pos_of_ne_zero (fun h => hei0 ((cdist_eq_zero_iff hi0 he).mp h).symm)
  have hfu : cdist t.capacity i0 e ≤ t.capacity :=
    le_of_lt (cdist_lt hi0 he)
  obtain ⟨m', pf, heqL, hout⟩ := removeLoop_run hash t.capacity hWF.pow2
    t.map i0 e he t.capacity t.map i0 i0 hinv hke hpos hfu
  have hpfsz : pf < m'.size := by rw [hout.size_eq]; exact hout.hp
  set t' : QHashMap K V :=
    { t with map := m'.setD pf { m'.getD pf emptyEntry with key := none },
             occupancy := t.occupancy - 1 } with ht'
  have ht'key_pf : keyAt t'.map pf = none := by
    rw [ht']
    exact keyAt_setD_eq _ _ _ hpfsz
  have ht'key_ne : ∀ a, a ≠ pf → keyAt t'.map a = keyAt m' a := by
    intro a ha
    rw [ht']
    exact keyAt_setD_ne _ _ _ _ (fun h => ha h.symm)
  have ht'val_ne : ∀ a, a ≠ pf → valAt t'.map a = valAt m' a := by
    intro a ha
    rw [ht']
    exact valAt_setD_ne _ _ _ _ (fun h => ha h.symm)
  have ht'sz : t'.map.size = t.capacity := by
    rw [ht']
    show (m'.setD pf _).size = t.capacity
    rw [Array.size_setD]
    exact hout.size_eq
  have ht'cnt : countOcc t'.map + 1 = countOcc t.map := by
    have hkpS : (keyAt m' pf).isSome = true := by
      cases hkp' : keyAt m' pf with
      | none => exact absurd hkp' hout.pending
      | some _ => rfl
    have hu := countOcc_update m' t'.map pf hpfsz
      (by rw [ht'sz, ← hout.size_eq]) ht'key_ne
    rw [ht'key_pf, hkpS] at hu
    simp only [Option.isSome_none, Bool.false_eq_true, if_false, if_true] at hu
    have hc0 : countOcc m' = countOcc t.map := hout.cnt
    rw [Nat.add_zero, hc0] at hu
    exact hu
  refine ⟨t', ?_, ?_, rfl, rfl, ?_, ?_⟩
  · simp only [Remove, hP, hk0, heqL]
  · refine ⟨ht'sz, hWF.pow2, ?_, ?_, ?_, ?_⟩
    · show t.occupancy - 1 = countOcc t'.map
      rw [hWF.occ_eq]
      omega
    · show t.occupancy - 1 + (t.occupancy - 1) / 4 < t.capacity
      have := hWF.load
      omega
    · intro a b k'' ha hb hka hkb
      have hapf : a ≠ pf := by
        intro h
        rw [h, ht'key_pf] at hka
        exact Option.noConfusion hka
      have hbpf : b ≠ pf := by
        intro h
        rw [h, ht'key_pf] at hkb
        exact Option.noConfusion hkb
      rw [ht'key_ne a hapf] at hka
      rw [ht'key_ne b hbpf] at hkb
      exact hout.nd a b k'' ha hb hapf hbpf hka hkb
    · intro a k'' ha hka j hj hlt
      have hapf : a ≠ pf := by
        intro h
        rw [h, ht'key_pf] at hka
        exact Option.noConfusion hka
      rw [ht'key_ne a hapf] at hka
      obtain ⟨hpath, hsafe⟩ := hout.safe a k'' ha hapf hka
      have hjpf : j ≠ pf := by
        intro h
        rw [h] at hlt
        exact hsafe hlt
      rw [ht'key_ne j hjpf]
      exact hpath j hj hlt
  · intro k' v hne
    have hstep : HasPair t' k' v ↔
        (∃ a, a < t.capacity ∧ a ≠ pf ∧ keyAt m' a = some k' ∧ valAt m' a = v) := by
      constructor
      · rintro ⟨a, ha, hka, hva⟩
        have hapf : a ≠ pf := by
          intro h
          rw [h, ht'key_pf] at hka
          exact Option.noConfusion hka
        rw [ht'key_ne a hapf] at hka
        rw [ht'val_ne a hapf] at hva
        exact ⟨a, ha, hapf, hka, hva⟩
      · rintro ⟨a, ha, hapf, hka, hva⟩
        refine ⟨a, ha, ?_, ?_⟩
        · rw [ht'key_ne a hapf]; exact hka
        · rw [ht'val_ne a hapf]; exact hva
    rw [hstep, hout.content k' v]
    constructor
    · rintro ⟨a, ha, hka, hva⟩
      refine ⟨a, ha, ?_, hka, hva⟩
      intro h
      rw [h, hk0] at hka
      injection hka with hkk
      exact hne hkk.symm
    · rintro ⟨a, ha, hai0, hka, hva⟩
      exact ⟨a, ha, hka, hva⟩
  · intro k'
    constructor
    · rintro ⟨a, ha, hka⟩
      have hapf : a ≠ pf := by
        intro h
        rw [h, ht'key_pf] at hka
        exact Option.noConfusion hka
      rw [ht'key_ne a hapf] at hka
      have hpair : (∃ i, i < t.capacity ∧ i ≠ pf ∧ keyAt m' i = some k'
          ∧ valAt m' i = valAt m' a) := ⟨a, ha, hapf, hka, rfl⟩
      rw [hout.content k' (valAt m' a)] at hpair
      obtain ⟨i, hi, hii0, hki, -⟩ := hpair
      constructor
      · intro h
        rw [h] at hki
        exact hii0 (hWF.nodup i i0 k hi hi0 hki hk0)
      · exact ⟨i, hi, hki⟩
    · rintro ⟨hne, a, ha, hka⟩
      have hai0 : a ≠ i0 := by
        intro h
        rw [h, hk0] at hka
        injection hka with hkk
        exact hne hkk.symm
      have hpair : (∃ i, i < t.capacity ∧ i ≠ i0 ∧ keyAt t.map i = some k'
          ∧ valAt t.map i = valAt t.map a) := ⟨a, ha, hai0, hka, rfl⟩
      rw [← hout.content k' (valAt t.map a)] at hpair
      obtain ⟨i, hi, hipf, hki, -⟩ := hpair
      exact ⟨i, hi, by rw [ht'key_ne i hipf]; exact hki⟩

theorem keyAt_clear (t : QHashMap K V) (i : Nat) :
    keyAt (Clear t).map i = none := by
  unfold Clear keyAt Array.getD
  split
  · next h =>
    rw [Array.get_eq_getElem, Array.getElem_map]
  · rfl

theorem Clear_WF (hash : K → Nat) (t : QHashMap K V) (hWF : WF hash t) :
    WF hash (Clear t) := by
  have hcap0 : 0 < t.capacity := cap_pos hWF.pow2
  refine ⟨?_, hWF.pow2, ?_, ?_, ?_, ?_⟩
  · show (t.map.map _).size = t.capacity
    rw [Array.size_map]
    exact hWF.size_eq
  · show (0 : Nat) = countOcc (Clear t).map
    symm
    unfold countOcc
    apply Finset.sum_eq_zero
    intro i _
    rw [keyAt_clear]
    rfl
  · show (0 : Nat) + 0 / 4 < t.capacity
    omega
  · intro a b k _ _ hka
    rw [keyAt_clear] at hka
    exact absurd hka (by simp)
  · intro a k _ hka
    rw [keyAt_clear] at hka
    exact absurd hka (by simp)

theorem setValueAt_WF (hash : K → Nat) (t : QHashMap K V) (i : Nat)
    (v : Option V) (hWF : WF hash t) : WF hash (setValueAt t i v) := by
  refine ⟨?_, hWF.pow2, ?_, hWF.load, ?_, ?_⟩
  · rw [setValueAt_size]
    exact hWF.size_eq
  · rw [setValueAt_occupancy, setValueAt_countOcc]
    exact hWF.occ_eq
  · intro a b k ha hb hka hkb
    rw [setValueAt_keyAt] at hka hkb
    exact hWF.nodup a b k ha hb hka hkb
  · intro a k ha hka j hj hlt
    rw [setValueAt_keyAt] at hka
    rw [setValueAt_keyAt]
    exact hWF.ppi a k ha hka j hj hlt

/-- Every public operation on a well-formed table succeeds, preserves
well-formedness, and preserves the (key, value) pair of every key it does
not write. -/
theorem runOp_spec (hash : K → Nat) (t : QHashMap K V) (op : Op K V)
    (hWF : WF hash t) :
    ∃ t', runOp hash t op = some t' ∧ WF hash t' ∧
      (∀ k v, ¬ touches op k → HasPair t k (some v) → HasPair t' k (some v)) := by
  classical
  cases op with
  | lookup k' b =>
    by_cases hmem : MemKey t k'
    · obtain ⟨i, hi, hki⟩ := hmem
      have heq : Lookup hash t k' b = some (some i, t) :=
        LookupAux_found hash t k' i b 1 hWF.size_eq hWF.pow2 hi hki
          hWF.nodup hWF.ppi
      refine ⟨t, ?_, hWF, fun k v _ h => h⟩
      show (Lookup hash t k' b).map (fun r => r.2) = some t
      rw [heq]
      rfl
    · have habs : ∀ i, i < t.capacity → keyAt t.map i ≠ some k' := by
        intro i hi hk
        exact hmem ⟨i, hi, hk⟩
      cases b with
      | false =>
        have heq : Lookup hash t k' false = some (none, t) :=
          LookupAux_notfound hash t k' 1 hWF.size_eq hWF.pow2
            (by rw [← hWF.occ_eq]; exact hWF.occ_lt) habs
        refine ⟨t, ?_, hWF, fun k v _ h => h⟩
        show (Lookup hash t k' false).map (fun r => r.2) = some t
        rw [heq]
        rfl
      | true =>
        obtain ⟨p, t', heq, hWF', hp, hkp, hocc, hcap, hpairs, hmem'⟩ :=
          LookupAux_insert_spec hash t k' 0 hWF habs
        have heq2 : Lookup hash t k' true = some (some p, t') := heq
        refine ⟨t', ?_, hWF', ?_⟩
        · show (Lookup hash t k' true).map (fun r => r.2) = some t'
          rw [heq2]
          rfl
        · intro k v _ h
          have hkk' : k ≠ k' := by
            intro h2
            obtain ⟨a, ha, hka, -⟩ := h
            rw [h2] at hka
            exact habs a ha hka
          exact (hpairs k (some v) hkk').mp h
  | put k' v' =>
    by_cases hmem : MemKey t k'
    · obtain ⟨i, hi, hki⟩ := hmem
      have heq : Lookup hash t k' true = some (some i, t) :=
        LookupAux_found hash t k' i true 1 hWF.size_eq hWF.pow2 hi hki
          hWF.nodup hWF.ppi
      refine ⟨setValueAt t i (some v'), ?_,
        setValueAt_WF hash t i (some v') hWF, ?_⟩
      · show (match Lookup hash t k' true with
          | some (some j, t2) => some (setValueAt t2 j (some v'))
          | _ => none) = some (setValueAt t i (some v'))
        rw [heq]
      · intro k v hnt h
        obtain ⟨a, ha, hka, hva⟩ := h
        have hai : a ≠ i := by
          intro h2
          rw [h2, hki] at hka
          injection hka with hkk
          exact hnt hkk
        refine ⟨a, ha, ?_, ?_⟩
        · rw [setValueAt_keyAt]
          exact hka
        · rw [setValueAt_valAt_ne t i (some v') a (fun h2 => hai h2.symm)]
          exact hva
    · have habs : ∀ i, i < t.capacity → keyAt t.map i ≠ some k' := by
        intro i hi hk
        exact hmem ⟨i, hi, hk⟩
      obtain ⟨p, t', heq, hWF', hp, hkp, hocc, hcap, hpairs, hmem'⟩ :=
        LookupAux_insert_spec hash t k' 0 hWF habs
      have heq2 : Lookup hash t k' true = some (some p, t') := heq
      refine ⟨setValueAt t' p (some v'), ?_,
        setValueAt_WF hash t' p (some v') hWF', ?_⟩
      · show (match Lookup hash t k' true with
          | some (some j, t2) => some (setValueAt t2 j (some v'))
          | _ => none) = some (setValueAt t' p (some v'))
        rw [heq2]
      · intro k v hnt h
        have hkk' : k ≠ k' := fun h2 => hnt h2.symm
        obtain ⟨a, ha, hka, hva⟩ := (hpairs k (some v) hkk').mp h
        have hap : a ≠ p := by
          intro h2
          rw [h2, hkp] at hka
          injection hka with hkk
          exact hkk' hkk.symm
        refine ⟨a, ha, ?_, ?_⟩
        · rw [setValueAt_keyAt]
          exact hka
        · rw [setValueAt_valAt_ne t' p (some v') a (fun h2 => hap h2.symm)]
          exact hva
  | remove k' =>
    by_cases hmem : MemKey t k'
    · obtain ⟨i, hi, hki⟩ := hmem
      obtain ⟨t', heq, hWF', -, -, hpairs, -⟩ :=
        Remove_found_spec hash t k' i hWF hi hki
      refine ⟨t', ?_, hWF', ?_⟩
      · show (Remove hash t k').map (fun r => r.2) = some t'
        rw [heq]
        rfl
      · intro k v hnt h
        exact (hpairs k (some v) (fun h2 => hnt h2.symm)).mp h
    · have habs : ∀ i, i < t.capacity → keyAt t.map i ≠ some k' := by
        intro i hi hk
        exact hmem ⟨i, hi, hk⟩
      have heq := Remove_absent_spec hash t k' hWF habs
      refine ⟨t, ?_, hWF, fun k v _ h => h⟩
      show (Remove hash t k').map (fun r => r.2) = some t
      rw [heq]
      rfl
  | clear =>
    refine ⟨Clear t, rfl, Clear_WF hash t hWF, ?_⟩
    intro k v hnt
    exact absurd trivial hnt

/-- Well-formedness is preserved by any sequence of public operations. -/
theorem runOps_WF (hash : K → Nat) :
    ∀ (ops : List (Op K V)) (t t' : QHashMap K V), WF hash t →
      runOps hash t ops = some t' → WF hash t' := by
  intro ops
  induction ops with
  | nil =>
    intro t t' hWF h
    simp only [runOps] at h
    injection h with h
    rw [← h]
    exact hWF
  | cons op ops ih =>
    intro t t' hWF h
    simp only [runOps] at h
    obtain ⟨t1, heq, hWF1, -⟩ := runOp_spec hash t op hWF
    rw [heq] at h
    exact ih t1 t' hWF1 h

/-- A stored pair of a key that no executed operation writes survives any
sequence of public operations. -/
theorem runOps_pair (hash : K → Nat) (k : K) (v : V) :
    ∀ (ops : List (Op K V)) (t t' : QHashMap K V), WF hash t →
      (∀ op ∈ ops, ¬ touches op k) →
      runOps hash t ops = some t' →
      HasPair t k (some v) → HasPair t' k (some v) := by
  intro ops
  induction ops with
  | nil =>
    intro t t' hWF _ h hp
    simp only [runOps] at h
    injection h with h
    rw [← h]
    exact hp
  | cons op ops ih =>
    intro t t' hWF hnt h hp
    simp only [runOps] at h
    obtain ⟨t1, heq, hWF1, hpres⟩ := runOp_spec hash t op hWF
    rw [heq] at h
    exact ih t1 t' hWF1 (fun o ho => hnt o (List.mem_cons_of_mem _ ho)) h
      (hpres k v (hnt op (List.mem_cons_self _ _)) hp)

theorem scanFrom_oob (m : Array (Entry K V)) (cap j : Nat) (h : ¬ j < cap) :
    scanFrom m cap j = none := by
  rw [scanFrom, if_neg h]

theorem scanFrom_hit (m : Array (Entry K V)) (cap j : Nat) (h : j < cap)
    (hk : (keyAt m j).isSome) : scanFrom m cap j = some j := by
  rw [scanFrom, if_pos h, if_pos hk]

theorem scanFrom_miss (m : Array (Entry K V)) (cap j : Nat) (h : j < cap)
    (hk : ¬ (keyAt m j).isSome) :
    scanFrom m cap j = scanFrom m cap (j+1) := by
  rw [scanFrom, if_pos h, if_neg hk]

/-- The iteration from scan position `j` yields exactly the occupied slots
`≥ j`, in increasing order. -/
theorem iterTrace_eq (t : QHashMap K V) :
    ∀ n j fuel, t.capacity - j = n → n ≤ fuel →
      iterTrace t fuel (scanFrom t.map t.capacity j)
        = (List.range' j (t.capacity - j)).filter
            (fun i => (keyAt t.map i).isSome) := by
  intro n
  induction n using Nat.strong_induction_on with
  | _ n ih =>
    intro j fuel hn hfuel
    by_cases hj : j < t.capacity
    · by_cases hk : (keyAt t.map j).isSome
      · rw [scanFrom_hit t.map t.capacity j hj hk]
        cases fuel with
        | zero => omega
        | succ f =>
          have hrange : t.capacity - j = (t.capacity - (j+1)) + 1 := by omega
          rw [hrange, List.range'_succ, List.filter_cons, if_pos hk]
          show j :: iterTrace t f (NextSlot t j) = _
          unfold NextSlot
          rw [ih (t.capacity - (j+1)) (by omega) (j+1) f rfl (by omega)]
      · rw [scanFrom_miss t.map t.capacity j hj hk]
        have hrange : t.capacity - j = (t.capacity - (j+1)) + 1 := by omega
        rw [hrange, List.range'_succ, List.filter_cons, if_neg hk]
        exact ih (t.capacity - (j+1)) (by omega) (j+1) fuel rfl (by omega)
    · rw [scanFrom_oob t.map t.capacity j hj]
      have h0 : t.capacity - j = 0 := by omega
      rw [h0]
      cases fuel <;> rfl

/-- The full iteration `Start; Next; Next; …` yields exactly the occupied
slots in increasing slot-index order. -/
theorem iterList_eq (t : QHashMap K V) :
    iterList t = (List.range t.capacity).filter
      (fun i => (keyAt t.map i).isSome) := by
  unfold iterList StartSlot
  rw [iterTrace_eq t (t.capacity - 0) 0 t.capacity rfl (by omega),
    Nat.sub_zero, List.range_eq_range']

/-- `Resize` doubles the backing array and preserves all live pairs; every
pre-resize pair is retrievable unchanged from the new array. -/
theorem Resize_spec (hash : K → Nat) (t : QHashMap K V)
    (hsz : t.map.size = t.capacity) (hpow : ∃ w, t.capacity = 2^w)
    (hocc : t.occupancy = countOcc t.map) (hn : t.occupancy ≤ t.capacity)
    (hnd : NodupArr t.map t.capacity) :
    ∃ t2, ResizeAux hash 1 t = some t2 ∧
      t2.capacity = t.capacity * 2 ∧ t2.map.size = t.capacity * 2 ∧
      t2.occupancy = t.occupancy ∧
      (∀ k v, HasPair t k v ↔ HasPair t2 k v) ∧
      (∀ k v, HasPair t k v →
        ∃ i, Lookup hash t2 k false = some (some i, t2) ∧
          keyAt t2.map i = some k ∧ valAt t2.map i = v) := by
  have hcap0 : 0 < t.capacity := cap_pos hpow
  obtain ⟨w, hw⟩ := hpow
  have hpow2 : ∃ w', t.capacity * 2 = 2^w' := ⟨w+1, by rw [hw, pow_succ]⟩
  have hload : t.occupancy + t.occupancy / 4 < t.capacity * 2 := by
    have h2 : t.occupancy / 4 ≤ t.capacity / 4 := Nat.div_le_div_right hn
    omega
  have hndOld : ∀ j j' k, keyAt t.map j = some k → keyAt t.map j' = some k →
      j = j' := by
    intro j j' k hj hj'
    exact hnd j j' k (keyAt_lt hsz hj) (keyAt_lt hsz hj') hj hj'
  have h0 := rehash_spec hash t.map 0 t.occupancy (t.capacity * 2)
    hpow2 hload hndOld t.map.size 0 t.occupancy (newTable (t.capacity * 2))
    (by omega) (by rw [countOccFrom_zero, ← hocc])
    rfl (by simp [newTable]) (by simp [newTable, countOcc_mkArray])
    (by show 0 + t.occupancy = t.occupancy; omega)
    (by intro a b k _ _ hka
        rw [show (newTable (t.capacity * 2) : QHashMap K V).map
          = Array.mkArray (t.capacity * 2) emptyEntry from rfl,
          keyAt_mkArray] at hka
        exact Option.noConfusion hka)
    (by intro a k _ hka
        rw [show (newTable (t.capacity * 2) : QHashMap K V).map
          = Array.mkArray (t.capacity * 2) emptyEntry from rfl,
          keyAt_mkArray] at hka
        exact Option.noConfusion hka)
    (by intro k
        constructor
        · rintro ⟨a, ha, hka⟩
          rw [show (newTable (t.capacity * 2) : QHashMap K V).map
            = Array.mkArray (t.capacity * 2) emptyEntry from rfl,
            keyAt_mkArray] at hka
          exact Option.noConfusion hka
        · rintro ⟨j, hj, -⟩
          exact absurd hj (Nat.not_lt_zero j))
    (by intro j k hj
        exact absurd hj (Nat.not_lt_zero j))
  obtain ⟨tf, heqR, htfcap, htfsz, htfocceq, htfoccN, htfnd, htfppi,
    htfmem, htfpairs⟩ := h0
  have heqRW : ResizeAux hash 1 t = some tf := heqR
  have htfszcap : tf.map.size = tf.capacity := by rw [htfsz, htfcap]
  have htfpow : ∃ w', tf.capacity = 2^w' := by rw [htfcap]; exact hpow2
  have htfnd' : NodupArr tf.map tf.capacity := by rw [htfcap]; exact htfnd
  have htfppi' : PpiArr hash tf.map tf.capacity := by rw [htfcap]; exact htfppi
  have hiff : ∀ k v, HasPair t k v ↔ HasPair tf k v := by
    intro k v
    constructor
    · rintro ⟨a, ha, hka, hva⟩
      rw [← hva]
      exact htfpairs a k hka
    · rintro ⟨a2, ha2, hka2, hva2⟩
      obtain ⟨j, hj⟩ := (htfmem k).mp ⟨a2, ha2, hka2⟩
      have hfj : HasPair tf k (valAt t.map j) := htfpairs j k hj
      have hveq : v = valAt t.map j :=
        pair_unique htfnd' ⟨a2, ha2, hka2, hva2⟩ hfj
      exact ⟨j, keyAt_lt hsz hj, hj, hveq.symm⟩
  refine ⟨tf, heqRW, htfcap, htfsz, htfoccN, hiff, ?_⟩
  intro k v hp
  obtain ⟨i, hi, hki, hvi⟩ := (hiff k v).mp hp
  refine ⟨i, ?_, hki, hvi⟩
  exact LookupAux_found hash tf k i false 1 htfszcap htfpow hi hki
    htfnd' htfppi'

/-- A decidable sufficient condition for `NodupArr`. -/
theorem NodupArr_of_ne (m : Array (Entry K V)) (cap : Nat)
    (h : ∀ a, a < cap → ∀ b, b < cap → a ≠ b →
      keyAt m a = none ∨ keyAt m a ≠ keyAt m b) :
    NodupArr m cap := by
  intro a b k ha hb hka hkb
  by_contra hne
  rcases h a ha b hb hne with h1 | h1
  · rw [hka] at h1
    exact Option.noConfusion h1
  · rw [hka, hkb] at h1
    exact h1 rfl

/-- `map.Lookup(k, true)->value = v` stores the pair `(k, v)`. -/
theorem runOp_put_spec (hash : K → Nat) (t : QHashMap K V) (k : K) (v : V)
    (hWF : WF hash t) :
    ∃ t1, runOp hash t (Op.put k v) = some t1 ∧ WF hash t1 ∧
      HasPair t1 k (some v) := by
  classical
  by_cases hmem : MemKey t k
  · obtain ⟨i, hi, hki⟩ := hmem
    have heq : Lookup hash t k true = some (some i, t) :=
      LookupAux_found hash t k i true 1 hWF.size_eq hWF.pow2 hi hki
        hWF.nodup hWF.ppi
    refine ⟨setValueAt t i (some v), ?_,
      setValueAt_WF hash t i (some v) hWF, ?_⟩
    · show (match Lookup hash t k true with
        | some (some j, t2) => some (setValueAt t2 j (some v))
        | _ => none) = some (setValueAt t i (some v))
      rw [heq]
    · refine ⟨i, hi, ?_, ?_⟩
      · rw [setValueAt_keyAt]
        exact hki
      · exact setValueAt_valAt_eq t i (some v) (by rw [hWF.size_eq]; exact hi)
  · have habs : ∀ i, i < t.capacity → keyAt t.map i ≠ some k := by
      intro i hi h
      exact hmem ⟨i, hi, h⟩
    obtain ⟨p, t', heq, hWF', hp, hkp, -⟩ :=
      LookupAux_insert_spec hash t k 0 hWF habs
    have heq2 : Lookup hash t k true = some (some p, t') := heq
    refine ⟨setValueAt t' p (some v), ?_,
      setValueAt_WF hash t' p (some v) hWF', ?_⟩
    · show (match Lookup hash t k true with
        | some (some j, t2) => some (setValueAt t2 j (some v))
        | _ => none) = some (setValueAt t' p (some v))
      rw [heq2]
    · refine ⟨p, hp, ?_, ?_⟩
      · rw [setValueAt_keyAt]
        exact hkp
      · exact setValueAt_valAt_eq t' p (some v) (by rw [hWF'.size_eq]; exact hp)

theorem scanFrom_bound (m : Array (Entry K V)) (cap : Nat) :
    ∀ n j i, cap - j = n → scanFrom m cap j = some i → i < cap := by
  intro n
  induction n using Nat.strong_induction_on with
  | _ n ih =>
    intro j i hn hs
    by_cases hj : j < cap
    · by_cases hk : (keyAt m j).isSome
      · rw [scanFrom_hit m cap j hj hk] at hs
        injection hs with hs
        omega
      · rw [scanFrom_miss m cap j hj hk] at hs
        exact ih (cap - (j+1)) (by omega) (j+1) i rfl hs
    · rw [scanFrom_oob m cap j hj] at hs
      exact Option.noConfusion hs

/-- C1: Deletion preserves findability of all other keys.  For any table
state reachable from a power-of-two-capacity initial table by a sequence
of public operations, after `Remove(k)` returns, every key `kk ≠ k` that
was present before the call is still found by `lookup(kk, false)`: the
slide-back repair loop with its wraparound interval test never orphans a
live key. -/
theorem claim_C1 (hash : K → Nat) (w : Nat) (ops : List (Op K V))
    (t : QHashMap K V)
    (hreach : runOps hash (newTable (2^w)) ops = some t)
    (k kk : K) (hne : kk ≠ k) (hmem : MemKey t kk)
    (b : Bool) (t' : QHashMap K V)
    (hrm : Remove hash t k = some (b, t')) :
    ∃ i, Lookup hash t' kk false = some (some i, t') ∧
      keyAt t'.map i = some kk := by
  have hWF : WF hash t :=
    runOps_WF hash ops (newTable (2^w)) t (newTable_WF hash w) hreach
  classical
  by_cases hk : MemKey t k
  · obtain ⟨i0, hi0, hk0⟩ := hk
    obtain ⟨t'', heq, hWF', -, -, -, hmem'⟩ :=
      Remove_found_spec hash t k i0 hWF hi0 hk0
    rw [heq] at hrm
    injection hrm with hrm2
    injection hrm2 with hb ht'
    subst ht'
    obtain ⟨i, hi, hki⟩ := (hmem' kk).mpr ⟨hne, hmem⟩
    exact ⟨i, LookupAux_found hash t'' kk i false 1 hWF'.size_eq hWF'.pow2
      hi hki hWF'.nodup hWF'.ppi, hki⟩
  · have habs : ∀ i, i < t.capacity → keyAt t.map i ≠ some k :=
      fun i hi h => hk ⟨i, hi, h⟩
    have heq := Remove_absent_spec hash t k hWF habs
    rw [heq] at hrm
    injection hrm with hrm2
    injection hrm2 with hb ht'
    subst ht'
    obtain ⟨i, hi, hki⟩ := hmem
    exact ⟨i, LookupAux_found hash t kk i false 1 hWF.size_eq hWF.pow2
      hi hki hWF.nodup hWF.ppi, hki⟩

theorem claim_C1_witness :
    ∃ i, Lookup (fun n => n) wT1r 9 false = some (some i, wT1r) ∧
      keyAt wT1r.map i = some 9 :=
  claim_C1 (fun n => n) 3 [Op.put 1 10, Op.put 9 90] wT1 (by decide) 1 9
    (by decide) ⟨2, by decide, by decide⟩ true wT1r (by decide)

/-- C2: Structural invariant.  Starting from a table initialized with a
power-of-two capacity, after every sequence of public operations
(`Lookup` with or without insert, value writes, `Remove`, `Clear`),
`occupancy < capacity` holds and the capacity is a power of two. -/
theorem claim_C2 (hash : K → Nat) (w : Nat) (ops : List (Op K V))
    (t : QHashMap K V)
    (hreach : runOps hash (newTable (2^w)) ops = some t) :
    t.occupancy < t.capacity ∧ ∃ w', t.capacity = 2 ^ w' := by
  have hWF : WF hash t :=
    runOps_WF hash ops (newTable (2^w)) t (newTable_WF hash w) hreach
  exact ⟨hWF.occ_lt, hWF.pow2⟩

theorem claim_C2_witness :
    wT1r.occupancy < wT1r.capacity ∧ ∃ w', wT1r.capacity = 2 ^ w' :=
  claim_C2 (fun n => n) 3 [Op.put 1 10, Op.put 9 90, Op.remove 1] wT1r
    (by decide)

/-- C3: Load-factor bound.  After every `Lookup(key, true)` call that
inserts a new (absent) key returns, `occupancy + occupancy/4 < capacity`
holds in integer arithmetic: the resize triggered when the threshold is
reached restores the bound. -/
theorem claim_C3 (hash : K → Nat) (t : QHashMap K V) (hWF : WF hash t)
    (k : K) (habs : ∀ i, i < t.capacity → keyAt t.map i ≠ some k)
    (r : Option Nat) (t' : QHashMap K V)
    (h : Lookup hash t k true = some (r, t')) :
    t'.occupancy + t'.occupancy / 4 < t'.capacity := by
  obtain ⟨p, t'', heq, hWF', -⟩ := LookupAux_insert_spec hash t k 0 hWF habs
  have heq2 : Lookup hash t k true = some (some p, t'') := heq
  rw [heq2] at h
  injection h with h2
  injection h2 with hr ht
  subst ht
  exact hWF'.load

theorem claim_C3_witness :
    wT3.occupancy + wT3.occupancy / 4 < wT3.capacity :=
  claim_C3 (fun n => n) (newTable (2^3)) (newTable_WF (fun n => n) 3) 5
    (by decide) (some 5) wT3 (by decide)

/-- C4: Round-trip.  For every key `k` inserted via `Lookup(k, true)`
whose entry's value was then set to `v` (the `put` idiom), any later
`lookup(k, false)` returns an entry whose value equals `v`, across any
interleaved operations that do not remove `k`, overwrite `k`'s value or
clear the table — including inserts and removes of other keys and the
resizes they trigger. -/
theorem claim_C4 (hash : K → Nat) (w : Nat) (ops0 : List (Op K V))
    (t0 : QHashMap K V)
    (h0 : runOps hash (newTable (2^w)) ops0 = some t0)
    (k : K) (v : V) (t1 : QHashMap K V)
    (hput : runOp hash t0 (Op.put k v) = some t1)
    (ops : List (Op K V)) (hnt : ∀ op ∈ ops, ¬ touches op k)
    (t2 : QHashMap K V) (h2 : runOps hash t1 ops = some t2) :
    ∃ i, Lookup hash t2 k false = some (some i, t2) ∧
      keyAt t2.map i = some k ∧ valAt t2.map i = some v := by
  have hWF0 : WF hash t0 :=
    runOps_WF hash ops0 (newTable (2^w)) t0 (newTable_WF hash w) h0
  obtain ⟨t1', heqput, hWF1, hpair1⟩ := runOp_put_spec hash t0 k v hWF0
  rw [heqput] at hput
  injection hput with ht1
  subst ht1
  have hWF2 : WF hash t2 := runOps_WF hash ops t1' t2 hWF1 h2
  have hpair2 : HasPair t2 k (some v) :=
    runOps_pair hash k v ops t1' t2 hWF1 hnt h2 hpair1
  obtain ⟨i, hi, hki, hvi⟩ := hpair2
  exact ⟨i, LookupAux_found hash t2 k i false 1 hWF2.size_eq hWF2.pow2
    hi hki hWF2.nodup hWF2.ppi, hki, hvi⟩

theorem claim_C4_witness :
    ∃ i, Lookup (fun n => n) wT4b 5 false = some (some i, wT4b) ∧
      keyAt wT4b.map i = some 5 ∧ valAt wT4b.map i = some 55 :=
  claim_C4 (fun n => n) 3 [] (newTable (2^3)) (by decide) 5 55 wT4a
    (by decide) [Op.put 2 22, Op.remove 2, Op.lookup 5 false] (by decide)
    wT4b (by decide)

/-- C5: Resize correctness.  `Resize` replaces the backing array with one
of exactly double the capacity, and every (key, value) pair live before
the resize is retrievable unchanged from the new array afterwards. -/
theorem claim_C5 (hash : K → Nat) (t : QHashMap K V)
    (hsz : t.map.size = t.capacity) (hpow : ∃ w, t.capacity = 2^w)
    (hocc : t.occupancy = countOcc t.map) (hn : t.occupancy ≤ t.capacity)
    (hnd : NodupArr t.map t.capacity) :
    ∃ t2, ResizeAux hash 1 t = some t2 ∧
      t2.capacity = t.capacity * 2 ∧ t2.map.size = t.capacity * 2 ∧
      (∀ k v, HasPair t k v →
        ∃ i, Lookup hash t2 k false = some (some i, t2) ∧
          keyAt t2.map i = some k ∧ valAt t2.map i = v) := by
  obtain ⟨t2, heq, hcap, hsz2, hocc2, hiff, hret⟩ :=
    Resize_spec hash t hsz hpow hocc hn hnd
  exact ⟨t2, heq, hcap, hsz2, hret⟩

theorem claim_C5_witness :
    ∃ t2, ResizeAux (fun n : Nat => n) 1 wT1 = some t2 ∧
      t2.capacity = wT1.capacity * 2 ∧ t2.map.size = wT1.capacity * 2 ∧
      (∀ k v, HasPair wT1 k v →
        ∃ i, Lookup (fun n : Nat => n) t2 k false = some (some i, t2) ∧
          keyAt t2.map i = some k ∧ valAt t2.map i = v) :=
  have hW1 : WF (fun n => n) wT1 :=
    runOps_WF (fun n => n) [Op.put 1 10, Op.put 9 90] (newTable (2^3)) wT1
      (newTable_WF (fun n => n) 3) (by decide)
  claim_C5 (fun n => n) wT1 hW1.size_eq hW1.pow2 hW1.occ_eq
    (le_of_lt hW1.occ_lt) hW1.nodup

/-- C6: Insert path with resize.  `Lookup(key, true)` on an absent key
stores the key, increments occupancy, and doubles the capacity exactly
when the new occupancy reaches the load-factor threshold; the handle it
returns designates `key`'s entry in the current (post-resize) backing
array, never a stale pre-resize slot. -/
theorem claim_C6 (hash : K → Nat) (t : QHashMap K V) (hWF : WF hash t)
    (k : K) (habs : ∀ i, i < t.capacity → keyAt t.map i ≠ some k) :
    ∃ p t', Lookup hash t k true = some (some p, t') ∧
      p < t'.capacity ∧ keyAt t'.map p = some k ∧
      t'.occupancy = t.occupancy + 1 ∧
      t'.capacity = (if t.capacity ≤ t.occupancy + 1 + (t.occupancy + 1) / 4
        then t.capacity * 2 else t.capacity) := by
  obtain ⟨p, t', heq, hWF', hp, hkp, hocc, hcap, -⟩ :=
    LookupAux_insert_spec hash t k 0 hWF habs
  exact ⟨p, t', heq, hp, hkp, hocc, hcap⟩

theorem claim_C6_witness :
    ∃ p t', Lookup (fun n : Nat => n) (newTable (2^3) : QHashMap Nat Nat) 5 true
        = some (some p, t') ∧
      p < t'.capacity ∧ keyAt t'.map p = some 5 ∧
      t'.occupancy = (newTable (2^3) : QHashMap Nat Nat).occupancy + 1 ∧
      t'.capacity = (if (newTable (2^3) : QHashMap Nat Nat).capacity ≤
          (newTable (2^3) : QHashMap Nat Nat).occupancy + 1 +
            ((newTable (2^3) : QHashMap Nat Nat).occupancy + 1) / 4
        then (newTable (2^3) : QHashMap Nat Nat).capacity * 2
        else (newTable (2^3) : QHashMap Nat Nat).capacity) :=
  claim_C6 (fun n => n) (newTable (2^3)) (newTable_WF (fun n => n) 3) 5
    (by decide)

/-- C7: Lookup miss without insert.  For every non-null key absent from
the table, `Lookup(key, false)` returns NULL and leaves the entire table
state — occupancy, capacity and every entry — unchanged. -/
theorem claim_C7 (hash : K → Nat) (t : QHashMap K V) (hWF : WF hash t)
    (k : K) (habs : ∀ i, i < t.capacity → keyAt t.map i ≠ some k) :
    Lookup hash t k false = some (none, t) :=
  LookupAux_notfound hash t k 1 hWF.size_eq hWF.pow2
    (by rw [← hWF.occ_eq]; exact hWF.occ_lt) habs

theorem claim_C7_witness :
    Lookup (fun n : Nat => n) wT1 7 false = some (none, wT1) :=
  have hW1 : WF (fun n => n) wT1 :=
    runOps_WF (fun n => n) [Op.put 1 10, Op.put 9 90] (newTable (2^3)) wT1
      (newTable_WF (fun n => n) 3) (by decide)
  claim_C7 (fun n => n) wT1 hW1 7 (by decide)

/-- C8: Remove of an absent key.  For every non-null key not present in
the table, `Remove(key)` returns `false` and leaves the entire table
state unchanged. -/
theorem claim_C8 (hash : K → Nat) (t : QHashMap K V) (hWF : WF hash t)
    (k : K) (habs : ∀ i, i < t.capacity → keyAt t.map i ≠ some k) :
    Remove hash t k = some (false, t) :=
  Remove_absent_spec hash t k hWF habs

theorem claim_C8_witness :
    Remove (fun n : Nat => n) wT1 7 = some (false, wT1) :=
  have hW1 : WF (fun n => n) wT1 :=
    runOps_WF (fun n => n) [Op.put 1 10, Op.put 9 90] (newTable (2^3)) wT1
      (newTable_WF (fun n => n) 3) (by decide)
  claim_C8 (fun n => n) wT1 hW1 7 (by decide)

/-- C9: Iteration enumerates the occupied slots in increasing slot-index
order: the full `Start; Next; Next; …` sequence is exactly the list of
occupied slot indices filtered from `0, …, capacity-1` in order (each
occupied entry exactly once, strictly increasing, ending with `none`),
and `Start` is its first element (`none` for an empty table).  `Start`
and `Next` are pure functions of the table: iteration performs no
mutation. -/
theorem claim_C9 (t : QHashMap K V) :
    iterList t = (List.range t.capacity).filter
      (fun i => (keyAt t.map i).isSome) ∧
    List.Pairwise (· < ·) (iterList t) ∧
    StartSlot t = (iterList t).head? := by
  refine ⟨iterList_eq t, ?_, ?_⟩
  · rw [iterList_eq t]
    exact (List.pairwise_lt_range t.capacity).filter _
  · unfold iterList
    cases hS : StartSlot t with
    | none =>
      cases t.capacity <;> rfl
    | some i =>
      have hi : i < t.capacity :=
        scanFrom_bound t.map t.capacity (t.capacity - 0) 0 i rfl hS
      cases hc : t.capacity with
      | zero => omega
      | succ c => rfl

/-- C10: Lookup on a present key is pure regardless of the insert flag:
it returns the existing entry's slot and the very same table — no resize,
no overwrite, no mutation at all. -/
theorem claim_C10 (hash : K → Nat) (t : QHashMap K V) (hWF : WF hash t)
    (k : K) (i : Nat) (hi : i < t.capacity) (hk : keyAt t.map i = some k)
    (b : Bool) : Lookup hash t k b = some (some i, t) :=
  LookupAux_found hash t k i b 1 hWF.size_eq hWF.pow2 hi hk
    hWF.nodup hWF.ppi

theorem claim_C10_witness :
    Lookup (fun n : Nat => n) wT4a 5 true = some (some 5, wT4a) :=
  have hW : WF (fun n => n) wT4a :=
    runOps_WF (fun n => n) [Op.put 5 55] (newTable (2^3)) wT4a
      (newTable_WF (fun n => n) 3) (by decide)
  claim_C10 (fun n => n) wT4a hW 5 5 (by decide) (by decide) true

end QHM
